import Mathlib

/-! Undo/redo history of the canvas board.

A shallow embedding of `core/undo-manager.js` (`UndoManager`, the two-stack
variant), `core/history.js` (`HistoryManager`, the cursor variant) and of the
undo/redo part of `file/filemanager.js` (`FileManager`), followed by the
properties established about them.

Snapshots are JavaScript strings, compared with `===`; they are `String` here.
Array lengths and capacities are natural numbers, the cursor `currentIndex`
is an integer because the constructor sets it to `-1`.
-/

namespace Calclynx

/-! ## JavaScript values and array helpers -/

/-- What `HistoryManager.undo` / `redo` can hand back: `null`, the result of
reading an array slot that does not exist, or a snapshot string. -/
inductive JsValue where
  | null : JsValue
  | undefined : JsValue
  | str (s : String) : JsValue
  deriving DecidableEq, Repr

/-- JavaScript truthiness negated, as used by `if (!stateStr) return;`:
`null`, `undefined` and the empty string are falsy. -/
def JsValue.falsy : JsValue → Bool
  | .null => true
  | .undefined => true
  | .str s => decide (s = "")

/-- Reading `xs[i]` for an integer `i`: a slot outside `0 .. length-1`
yields `undefined`. -/
def arrayAt (xs : List String) (i : Int) : JsValue :=
  if i < 0 then .undefined
  else
    match xs.get? i.toNat with
    | some s => .str s
    | none => .undefined

/-- The call `xs.slice(0, e)`: a negative `e` counts from the end (clamped at
0), an `e` beyond the length is clamped to the length. -/
def sliceTo (xs : List String) (e : Int) : List String :=
  if e < 0 then xs.take ((xs.length : Int) + e).toNat else xs.take e.toNat

/-- One call of an external import routine as seen from the outside: the
arguments it received and the value of the `isRestoring` flag at the moment
it was entered. -/
structure ImportCall where
  data : String
  shouldSave : Bool
  restoring : Bool
  deriving DecidableEq, Repr

/-- The observable outcome of running a method that may call an external
routine: its completion (`Except.ok v` for `return v`, `Except.error e` for an
exception `e` leaving the method), the object state at exit, and the import
calls made, in order. -/
structure Run (ε σ α : Type) where
  result : Except ε α
  state : σ
  imports : List ImportCall

/-! ## `UndoManager` (core/undo-manager.js) -/

/-- The fields of an `UndoManager` instance. -/
structure UndoManager where
  maxHistory : Nat
  history : List String
  future : List String
  isRestoring : Bool
  deriving DecidableEq, Repr

/-- The `board` argument of `undo` / `redo`, reduced to what they use:
`board.fileManager.importData(data, shouldSave)`. The routine is external; it
may return or throw (`Except.error`) and may change the manager it is
called under (for instance by calling `pushSnapshot` on it). -/
structure Board (ε : Type) where
  importData : String → Bool → UndoManager → Except ε Unit × UndoManager

namespace UndoManager

/-- The call `new UndoManager(maxHistory)`. -/
def constructor (maxHistory : Nat) : UndoManager :=
  { maxHistory := maxHistory, history := [], future := [], isRestoring := false }

/-- The method `pushSnapshot(stateString)`. -/
def pushSnapshot (m : UndoManager) (stateString : String) : UndoManager :=
  if m.isRestoring then m
  else
    let m1 := { m with future := [] }
    if m1.history.length > 0 ∧ m1.history.getLast? = some stateString then m1
    else
      let m2 := { m1 with history := m1.history ++ [stateString] }
      if m2.history.length > m2.maxHistory then { m2 with history := m2.history.tail }
      else m2

/-- The method `canUndo()`. -/
def canUndo (m : UndoManager) : Bool := decide (m.history.length ≥ 2)

/-- The method `canRedo()`. -/
def canRedo (m : UndoManager) : Bool := decide (m.future.length > 0)

/-- The method `undo(board)`. `history.pop()` and the read of the new last
entry are total here because the guard leaves at least two entries. The
`finally` block runs whether `importData` returned or threw; a thrown
exception then leaves `undo`. -/
def undo {ε : Type} (m : UndoManager) (board : Board ε) : Run ε UndoManager Bool :=
  if h : m.history.length < 2 then
    { result := .ok false, state := m, imports := [] }
  else
    let popped := m.history.getLast (by intro h0; simp [h0] at h)
    let m1 := { m with history := m.history.dropLast, future := m.future ++ [popped] }
    let previousState := m1.history.getLast (by
      intro h0
      have h1 : m.history.dropLast.length = 0 := by
        have h2 : m.history.dropLast = [] := h0
        simp [h2]
      rw [List.length_dropLast] at h1
      omega)
    let m2 := { m1 with isRestoring := true }
    let r := board.importData previousState false m2
    { result := r.1.map (fun _ => true),
      state := { r.2 with isRestoring := false },
      imports := [{ data := previousState, shouldSave := false, restoring := m2.isRestoring }] }

/-- The method `redo(board)`. -/
def redo {ε : Type} (m : UndoManager) (board : Board ε) : Run ε UndoManager Bool :=
  if h : m.future.length = 0 then
    { result := .ok false, state := m, imports := [] }
  else
    let nextState := m.future.getLast (by intro h0; simp [h0] at h)
    let m1 := { m with future := m.future.dropLast, history := m.history ++ [nextState] }
    let m2 := { m1 with isRestoring := true }
    let r := board.importData nextState false m2
    { result := r.1.map (fun _ => true),
      state := { r.2 with isRestoring := false },
      imports := [{ data := nextState, shouldSave := false, restoring := m2.isRestoring }] }

/-- The method `clear()`. -/
def clear (m : UndoManager) : UndoManager :=
  { m with history := [], future := [] }

end UndoManager

/-- A board whose `importData` returns normally and leaves the manager
alone. -/
def quietBoard : Board String :=
  { importData := fun _ _ m => (.ok (), m) }

/-- A board whose `importData` throws the given error. -/
def throwingBoard (e : String) : Board String :=
  { importData := fun _ _ m => (.error e, m) }

/-! ## `HistoryManager` (core/history.js) -/

/-- The fields of a `HistoryManager` instance. -/
structure HistoryManager where
  states : List String
  currentIndex : Int
  maxStates : Nat
  isRestoring : Bool
  deriving DecidableEq, Repr

namespace HistoryManager

/-- The call `new HistoryManager()`. -/
def constructor : HistoryManager :=
  { states := [], currentIndex := -1, maxStates := 50, isRestoring := false }

/-- The method `initialize(stateStr)` (spelt `initialise` here, the source
name being a reserved word). -/
def initialise (h : HistoryManager) (stateStr : String) : HistoryManager :=
  { h with states := [stateStr], currentIndex := 0 }

/-- The method `push(stateStr)`. -/
def push (h : HistoryManager) (stateStr : String) : HistoryManager :=
  let states1 :=
    if h.currentIndex < (h.states.length : Int) - 1 then sliceTo h.states (h.currentIndex + 1)
    else h.states
  let states2 := states1 ++ [stateStr]
  if states2.length > h.maxStates then { h with states := states2.tail }
  else { h with states := states2, currentIndex := h.currentIndex + 1 }

/-- The method `canUndo()`. -/
def canUndo (h : HistoryManager) : Bool := decide (h.currentIndex > 0)

/-- The method `canRedo()`. -/
def canRedo (h : HistoryManager) : Bool :=
  decide (h.currentIndex < (h.states.length : Int) - 1)

/-- The method `undo()`: the returned value and the manager afterwards. -/
def undo (h : HistoryManager) : JsValue × HistoryManager :=
  if !h.canUndo then (.null, h)
  else
    let h1 := { h with currentIndex := h.currentIndex - 1 }
    (arrayAt h1.states h1.currentIndex, h1)

/-- The method `redo()`: the returned value and the manager afterwards. -/
def redo (h : HistoryManager) : JsValue × HistoryManager :=
  if !h.canRedo then (.null, h)
  else
    let h1 := { h with currentIndex := h.currentIndex + 1 }
    (arrayAt h1.states h1.currentIndex, h1)

end HistoryManager

/-- The calls a client can make on a `HistoryManager`. -/
inductive HistoryOp where
  | init (s : String) : HistoryOp
  | push (s : String) : HistoryOp
  | undo : HistoryOp
  | redo : HistoryOp
  deriving DecidableEq, Repr

/-- The manager after one client call (return values dropped). -/
def HistoryManager.step (h : HistoryManager) : HistoryOp → HistoryManager
  | .init s => h.initialise s
  | .push s => h.push s
  | .undo => h.undo.2
  | .redo => h.redo.2

/-- The states a `HistoryManager` can be in: a freshly constructed manager
(the capacity field `maxStates` is 50 in the source and left arbitrary here),
followed by any finite number of `initialize` / `push` / `undo` / `redo`
calls. The `isRestoring` field is public and written by `FileManager`, so it
may be set to any value in between. -/
inductive HistoryManager.Reachable : HistoryManager → Prop where
  | fresh (c : Nat) : Reachable { HistoryManager.constructor with maxStates := c }
  | step (h : HistoryManager) (op : HistoryOp) : Reachable h → Reachable (h.step op)
  | flag (h : HistoryManager) (b : Bool) : Reachable h → Reachable { h with isRestoring := b }

/-- The states a `HistoryManager` can be in once `initialize` has been
called: `initialize` on a reachable manager, followed by any finite number of
`push` / `undo` / `redo` (or further `initialize`) calls. -/
inductive HistoryManager.Initialised : HistoryManager → Prop where
  | init (h : HistoryManager) (s : String) : Reachable h → Initialised (h.initialise s)
  | step (h : HistoryManager) (op : HistoryOp) : Initialised h → Initialised (h.step op)
  | flag (h : HistoryManager) (b : Bool) : Initialised h → Initialised { h with isRestoring := b }

/-! ## `FileManager` (file/filemanager.js), undo/redo part -/

/-- The `fileReader` collaborator, reduced to `importData(data, shouldSave)`:
external, may return or throw, and may change the history manager (its
source is not part of this development). -/
structure FileReader (ε : Type) where
  importData : String → Bool → HistoryManager → Except ε Unit × HistoryManager

/-- The `fileWriter` collaborator: `serializeState()` yields the snapshot of
the current document, `saveState()` is the external (asynchronous) save,
which is started synchronously by `FileManager.saveState`. -/
structure FileWriter (ε : Type) where
  serializeState : String
  saveState : HistoryManager → Except ε Unit × HistoryManager

/-- The fields of a `FileManager` that undo/redo and `saveState` use. -/
structure FileManager (ε : Type) where
  historyManager : HistoryManager
  fileReader : FileReader ε
  fileWriter : FileWriter ε

namespace FileManager

/-- The method `saveState()`, up to and including the call that starts
`fileWriter.saveState()`. -/
def saveState {ε : Type} (fm : FileManager ε) : Run ε HistoryManager Unit :=
  let hm1 :=
    if !fm.historyManager.isRestoring then fm.historyManager.push fm.fileWriter.serializeState
    else fm.historyManager
  let r := fm.fileWriter.saveState hm1
  { result := r.1, state := r.2, imports := [] }

/-- The method `initHistory()`. -/
def initHistory {ε : Type} (fm : FileManager ε) : HistoryManager :=
  fm.historyManager.initialise fm.fileWriter.serializeState

/-- The method `undo()`. Nothing happens for a falsy `stateStr` (`null`,
`undefined` or the empty string); otherwise the flag is set,
`importData(stateStr, false)` is called and, if it returns, the flag is
cleared. There is no `try`/`finally`: an exception leaves the method with
the statement after the call not executed. -/
def undo {ε : Type} (fm : FileManager ε) : Run ε HistoryManager Unit :=
  let r := fm.historyManager.undo
  if r.1.falsy then { result := .ok (), state := r.2, imports := [] }
  else
    match r.1 with
    | .str stateStr =>
      let hm1 := { r.2 with isRestoring := true }
      let out := fm.fileReader.importData stateStr false hm1
      let call : ImportCall :=
        { data := stateStr, shouldSave := false, restoring := hm1.isRestoring }
      match out.1 with
      | .ok _ =>
        { result := .ok (), state := { out.2 with isRestoring := false }, imports := [call] }
      | .error e => { result := .error e, state := out.2, imports := [call] }
    | _ => { result := .ok (), state := r.2, imports := [] }

/-- The method `redo()`, with the same shape as `undo()`. -/
def redo {ε : Type} (fm : FileManager ε) : Run ε HistoryManager Unit :=
  let r := fm.historyManager.redo
  if r.1.falsy then { result := .ok (), state := r.2, imports := [] }
  else
    match r.1 with
    | .str stateStr =>
      let hm1 := { r.2 with isRestoring := true }
      let out := fm.fileReader.importData stateStr false hm1
      let call : ImportCall :=
        { data := stateStr, shouldSave := false, restoring := hm1.isRestoring }
      match out.1 with
      | .ok _ =>
        { result := .ok (), state := { out.2 with isRestoring := false }, imports := [call] }
      | .error e => { result := .error e, state := out.2, imports := [call] }
    | _ => { result := .ok (), state := r.2, imports := [] }

end FileManager

/-- A file reader whose `importData` returns normally and leaves the history
manager alone. -/
def quietReader : FileReader String :=
  { importData := fun _ _ h => (.ok (), h) }

/-- A file reader whose `importData` throws the given error. -/
def throwingReader (e : String) : FileReader String :=
  { importData := fun _ _ h => (.error e, h) }

/-- A file writer that serialises to `doc` and whose save does nothing. -/
def quietWriter (doc : String) : FileWriter String :=
  { serializeState := doc, saveState := fun h => (.ok (), h) }

/-! ## Reference notions used in the statements -/

/-- Collapsing runs of consecutive equal snapshots: of each maximal run of
equal neighbours one entry is kept, the order is unchanged. -/
def collapseRuns : List String → List String
  | [] => []
  | [a] => [a]
  | a :: b :: rest =>
    if a = b then collapseRuns (b :: rest) else a :: collapseRuns (b :: rest)

/-- The last `c` entries of a list (the whole list when it has fewer). -/
def lastEntries (c : Nat) (xs : List String) : List String :=
  xs.drop (xs.length - c)

/-- Pushing the snapshots of a list, in order, with `pushSnapshot`. -/
def pushAll (m : UndoManager) (ps : List String) : UndoManager :=
  ps.foldl UndoManager.pushSnapshot m

/-- A board whose `importData` synchronously calls `pushSnapshot` on the
manager it runs under, once for each snapshot of `f data shouldSave manager`
(any number of calls with any snapshots), and then returns normally. -/
def pushingBoard (f : String → Bool → UndoManager → List String) : Board String :=
  { importData := fun d b k => (.ok (), pushAll k (f d b k)) }

/-- The cursor is `-1` or points at an existing entry. -/
def HistoryManager.CursorOk (h : HistoryManager) : Prop :=
  -1 ≤ h.currentIndex ∧ h.currentIndex ≤ (h.states.length : Int) - 1

/-- A `HistoryManager` as constructed, with the capacity field `maxStates`
set to `c` (the constructor itself sets 50). -/
def HistoryManager.withCapacity (c : Nat) : HistoryManager :=
  { HistoryManager.constructor with maxStates := c }

/-- The manager after a list of client calls, made in order. -/
def HistoryManager.run (h : HistoryManager) (ops : List HistoryOp) : HistoryManager :=
  ops.foldl HistoryManager.step h

/-- The calls `initialize("A"); push("B"); push("C"); undo(); undo(); undo();
redo(); push("D"); redo()` on a new `HistoryManager`: the values returned by
the five undo/redo calls, in order, and the manager at the end. -/
def historyScenario : List JsValue × HistoryManager :=
  let h := ((HistoryManager.constructor.initialise "A").push "B").push "C"
  let r1 := h.undo
  let r2 := r1.2.undo
  let r3 := r2.2.undo
  let r4 := r3.2.redo
  let r5 := (r4.2.push "D").redo
  ([r1.1, r2.1, r3.1, r4.1, r5.1], r5.2)

/-- The calls `initialize("A"); push("B"); push("C"); undo(); undo()` on a
`HistoryManager` of capacity 2: the states after the pushes and the values
returned by the two undo calls. -/
def evictionScenario : List String × JsValue × JsValue :=
  let h := (((HistoryManager.withCapacity 2).initialise "A").push "B").push "C"
  (h.states, h.undo.1, h.undo.2.undo.1)

/-- The calls a client can make on an `UndoManager`. -/
inductive UndoOp where
  | push (s : String) : UndoOp
  | undo : UndoOp
  | redo : UndoOp
  | clear : UndoOp
  deriving DecidableEq, Repr

/-- The manager after one client call (return value dropped). -/
def UndoManager.step {ε : Type} (board : Board ε) (m : UndoManager) : UndoOp → UndoManager
  | .push s => m.pushSnapshot s
  | .undo => (m.undo board).state
  | .redo => (m.redo board).state
  | .clear => m.clear

/-- The manager after a list of client calls, made in order. -/
def UndoManager.run {ε : Type} (board : Board ε) (m : UndoManager) (ops : List UndoOp) :
    UndoManager :=
  ops.foldl (UndoManager.step board) m

/-- The same method called `k` times in a row by a caller that does not
catch exceptions: the values returned, the manager at the end and the import
calls made, in order. An exception ends the sequence. -/
def repeatCall {ε : Type} (f : UndoManager → Run ε UndoManager Bool) :
    Nat → UndoManager → Run ε UndoManager (List Bool)
  | 0, m => { result := .ok [], state := m, imports := [] }
  | k + 1, m =>
    match (f m).result with
    | .error e => { result := .error e, state := (f m).state, imports := (f m).imports }
    | .ok b =>
      { result := (repeatCall f k (f m).state).result.map (fun bs => b :: bs),
        state := (repeatCall f k (f m).state).state,
        imports := (f m).imports ++ (repeatCall f k (f m).state).imports }

/-- The calls common to both managers once they hold an initial snapshot:
`push(s)` / `pushSnapshot(s)`, `undo` and `redo`. -/
inductive EditOp where
  | push (s : String) : EditOp
  | undo : EditOp
  | redo : EditOp
  deriving DecidableEq, Repr

/-- What a client observes of one call: whether an undo/redo succeeded
(pushes always count as done), the snapshot restored by it (returned by
`HistoryManager`, handed to `importData` by `UndoManager`), and the answers
of `canUndo()` / `canRedo()` right after the call. -/
structure Observation where
  succeeded : Bool
  snapshot : Option String
  canUndo : Bool
  canRedo : Bool
  deriving DecidableEq, Repr

/-- One call on a `HistoryManager`: the observation and the manager after
it. An undo/redo succeeds when it does not return `null`. -/
def HistoryManager.observe (h : HistoryManager) : EditOp → Observation × HistoryManager
  | .push s =>
    ({ succeeded := true, snapshot := none,
       canUndo := (h.push s).canUndo, canRedo := (h.push s).canRedo }, h.push s)
  | .undo =>
    ({ succeeded := !decide (h.undo.1 = JsValue.null),
       snapshot := match h.undo.1 with
         | .str s => some s
         | _ => none,
       canUndo := h.undo.2.canUndo, canRedo := h.undo.2.canRedo }, h.undo.2)
  | .redo =>
    ({ succeeded := !decide (h.redo.1 = JsValue.null),
       snapshot := match h.redo.1 with
         | .str s => some s
         | _ => none,
       canUndo := h.redo.2.canUndo, canRedo := h.redo.2.canRedo }, h.redo.2)

/-- One call on an `UndoManager`: the observation and the manager after it.
An undo/redo succeeds when it returns true. -/
def UndoManager.observe {ε : Type} (board : Board ε) (m : UndoManager) :
    EditOp → Observation × UndoManager
  | .push s =>
    ({ succeeded := true, snapshot := none,
       canUndo := (m.pushSnapshot s).canUndo, canRedo := (m.pushSnapshot s).canRedo },
      m.pushSnapshot s)
  | .undo =>
    ({ succeeded := match (m.undo board).result with
         | .ok b => b
         | .error _ => false,
       snapshot := ((m.undo board).imports.getLast?).map ImportCall.data,
       canUndo := (m.undo board).state.canUndo, canRedo := (m.undo board).state.canRedo },
      (m.undo board).state)
  | .redo =>
    ({ succeeded := match (m.redo board).result with
         | .ok b => b
         | .error _ => false,
       snapshot := ((m.redo board).imports.getLast?).map ImportCall.data,
       canUndo := (m.redo board).state.canUndo, canRedo := (m.redo board).state.canRedo },
      (m.redo board).state)

/-- The observations of a list of calls on a `HistoryManager`, in order. -/
def HistoryManager.trace (h : HistoryManager) : List EditOp → List Observation
  | [] => []
  | op :: rest => (h.observe op).1 :: HistoryManager.trace (h.observe op).2 rest

/-- The observations of a list of calls on an `UndoManager`, in order. -/
def UndoManager.trace {ε : Type} (board : Board ε) (m : UndoManager) :
    List EditOp → List Observation
  | [] => []
  | op :: rest => (m.observe board op).1 :: UndoManager.trace board (m.observe board op).2 rest

/-- The `HistoryManager` after a list of calls. -/
def HistoryManager.after (h : HistoryManager) (ops : List EditOp) : HistoryManager :=
  ops.foldl (fun g op => (g.observe op).2) h

/-- The `UndoManager` after a list of calls. -/
def UndoManager.after {ε : Type} (board : Board ε) (m : UndoManager) (ops : List EditOp) :
    UndoManager :=
  ops.foldl (fun k op => (k.observe board op).2) m

/-- No `push` of the list, run from `h`, carries the snapshot that is current
(the entry under the cursor) at the time of that push. -/
def dupFree (h : HistoryManager) : List EditOp → Bool
  | [] => true
  | .push s :: rest =>
    decide (arrayAt h.states h.currentIndex ≠ JsValue.str s) && dupFree (h.push s) rest
  | .undo :: rest => dupFree h.undo.2 rest
  | .redo :: rest => dupFree h.redo.2 rest

/-- The relation between the two representations: `history` is
`states[0 .. currentIndex]` and `future` is the reverse of
`states[currentIndex + 1 ..]`. -/
def Related (h : HistoryManager) (m : UndoManager) : Prop :=
  m.history = h.states.take (h.currentIndex + 1).toNat ∧
    m.future = (h.states.drop (h.currentIndex + 1).toNat).reverse

instance (h : HistoryManager) (m : UndoManager) : Decidable (Related h m) := by
  unfold Related
  infer_instance

/-- The relation `Related` in the form used for the induction: the states
are the history followed by the reversed future, the cursor is on the last
history entry, the capacities agree and the undo manager is not restoring. -/
def Simulates (h : HistoryManager) (m : UndoManager) : Prop :=
  h.states = m.history ++ m.future.reverse ∧ m.history ≠ [] ∧
    h.currentIndex = (m.history.length : Int) - 1 ∧ m.maxHistory = h.maxStates ∧
    m.isRestoring = false

/-! ## Auxiliary facts -/

theorem collapseRuns_ne_nil (a : String) (xs : List String) : collapseRuns (a :: xs) ≠ [] := by
  induction xs generalizing a with
  | nil => simp [collapseRuns]
  | cons b rest ih =>
    unfold collapseRuns
    split
    · exact ih b
    · simp

theorem getLast?_collapseRuns (xs : List String) : (collapseRuns xs).getLast? = xs.getLast? := by
  induction xs with
  | nil => simp [collapseRuns]
  | cons a rest ih =>
    cases rest with
    | nil => simp [collapseRuns]
    | cons b rest =>
      unfold collapseRuns
      split
      · rw [ih]; simp [List.getLast?_cons_cons]
      · have hne := collapseRuns_ne_nil b rest
        obtain ⟨c, cs, hc⟩ := List.exists_cons_of_ne_nil hne
        rw [hc, List.getLast?_cons_cons, ← hc, ih, List.getLast?_cons_cons]

theorem collapseRuns_append_singleton (xs : List String) (s : String) :
    collapseRuns (xs ++ [s]) =
      if xs.getLast? = some s then collapseRuns xs else collapseRuns xs ++ [s] := by
  induction xs with
  | nil => simp [collapseRuns]
  | cons a rest ih =>
    cases rest with
    | nil =>
      by_cases h : a = s
      · simp [collapseRuns, h]
      · simp [collapseRuns, h]
    | cons b rest =>
      have ih2 : collapseRuns (b :: (rest ++ [s])) =
          if (b :: rest).getLast? = some s then collapseRuns (b :: rest)
          else collapseRuns (b :: rest) ++ [s] := by simpa using ih
      have hl : (a :: b :: rest).getLast? = (b :: rest).getLast? := List.getLast?_cons_cons
      show collapseRuns (a :: b :: (rest ++ [s])) = _
      rw [hl]
      unfold collapseRuns
      by_cases hab : a = b
      · simp only [hab, if_true]
        rw [ih2]
      · simp only [hab, if_false]
        rw [ih2]
        split <;> simp

theorem lastEntries_length (c : Nat) (xs : List String) :
    (lastEntries c xs).length = min c xs.length := by
  unfold lastEntries
  rw [List.length_drop]
  omega

theorem getLast?_lastEntries (c : Nat) (hc : 1 ≤ c) (xs : List String) :
    (lastEntries c xs).getLast? = xs.getLast? := by
  unfold lastEntries
  rcases List.eq_nil_or_concat xs with h | ⟨ys, y, h⟩
  · simp [h]
  · subst h
    rw [List.concat_eq_append]
    have hlen : (ys ++ [y]).length - c ≤ ys.length := by simp; omega
    rw [List.drop_append_of_le_length hlen]
    simp

theorem lastEntries_append_singleton (c : Nat) (hc : 1 ≤ c) (xs : List String) (s : String) :
    lastEntries c (xs ++ [s]) =
      if (lastEntries c xs ++ [s]).length > c then (lastEntries c xs ++ [s]).tail
      else lastEntries c xs ++ [s] := by
  have hlen : (xs ++ [s]).length - c ≤ xs.length := by simp; omega
  unfold lastEntries
  rw [List.drop_append_of_le_length hlen]
  simp only [List.length_append, List.length_drop, List.length_singleton]
  by_cases hfull : c ≤ xs.length
  · have h1 : xs.length - (xs.length - c) + 1 > c := by omega
    rw [if_pos h1]
    have h2 : xs.length + 1 - c = (xs.length - c) + 1 := by omega
    rw [h2]
    have h3 : xs.length - c < xs.length := by omega
    rw [← List.drop_drop 1 (xs.length - c) xs] 
    cases hd : List.drop (xs.length - c) xs with
    | nil =>
      have := congrArg List.length hd
      simp at this
      omega
    | cons y ys => simp
  · have h1 : ¬ (xs.length - (xs.length - c) + 1 > c) := by omega
    rw [if_neg h1]
    have h2 : xs.length + 1 - c = 0 := by omega
    have h3 : xs.length - c = 0 := by omega
    rw [h2, h3]
theorem pushAll_append_singleton (m : UndoManager) (ps : List String) (p : String) :
    pushAll m (ps ++ [p]) = (pushAll m ps).pushSnapshot p := by
  simp [pushAll, List.foldl_append]

theorem pushAll_constructor (c : Nat) (hc : 1 ≤ c) (ps : List String) :
    pushAll (UndoManager.constructor c) ps =
      { maxHistory := c, history := lastEntries c (collapseRuns ps), future := [],
        isRestoring := false } := by
  induction ps using List.reverseRecOn with
  | nil => simp [pushAll, UndoManager.constructor, collapseRuns, lastEntries]
  | append_singleton ps p ih =>
    rw [pushAll_append_singleton, ih]
    have hlast : (lastEntries c (collapseRuns ps)).getLast? = ps.getLast? := by
      rw [getLast?_lastEntries c hc, getLast?_collapseRuns]
    rw [collapseRuns_append_singleton]
    by_cases hdup : ps.getLast? = some p
    · have hpos : (lastEntries c (collapseRuns ps)).length > 0 := by
        cases hl : lastEntries c (collapseRuns ps) with
        | nil => rw [hl] at hlast; rw [hdup] at hlast; simp at hlast
        | cons y ys => simp
      simp [UndoManager.pushSnapshot, hlast, hdup, hpos]
    · rw [if_neg hdup, lastEntries_append_singleton c hc]
      simp only [UndoManager.pushSnapshot, hlast, hdup, and_false, if_false]
      simp only [List.length_append, List.length_singleton, gt_iff_lt, Bool.false_eq_true,
        if_false]
      split_ifs <;> rfl

/-! ### Cursor facts about `HistoryManager` -/

theorem HistoryManager.push_length (h : HistoryManager) (hw : h.CursorOk) (s : String) :
    (h.push s).currentIndex = ((h.push s).states.length : Int) - 1 := by
  obtain ⟨h1, h2⟩ := hw
  unfold HistoryManager.push sliceTo
  by_cases hc : h.currentIndex < (h.states.length : Int) - 1
  · have hneg : ¬ (h.currentIndex + 1 < 0) := by omega
    simp only [hc, hneg, if_true, if_false]
    split_ifs
    · simp only [List.length_tail, List.length_append, List.length_take, List.length_singleton]
      omega
    · simp only [List.length_append, List.length_take, List.length_singleton]
      omega
  · simp only [hc, if_false]
    split_ifs
    · simp only [List.length_tail, List.length_append, List.length_singleton]
      omega
    · simp only [List.length_append, List.length_singleton]
      push_cast
      omega

theorem HistoryManager.undo_of_canUndo (h : HistoryManager) (hc : h.canUndo = true) :
    h.undo = (arrayAt h.states (h.currentIndex - 1),
      { h with currentIndex := h.currentIndex - 1 }) := by
  simp [HistoryManager.undo, hc]

theorem HistoryManager.undo_of_not_canUndo (h : HistoryManager) (hc : h.canUndo = false) :
    h.undo = (JsValue.null, h) := by
  simp [HistoryManager.undo, hc]

theorem HistoryManager.redo_of_canRedo (h : HistoryManager) (hc : h.canRedo = true) :
    h.redo = (arrayAt h.states (h.currentIndex + 1),
      { h with currentIndex := h.currentIndex + 1 }) := by
  simp [HistoryManager.redo, hc]

theorem HistoryManager.redo_of_not_canRedo (h : HistoryManager) (hc : h.canRedo = false) :
    h.redo = (JsValue.null, h) := by
  simp [HistoryManager.redo, hc]

theorem arrayAt_of_inBounds (xs : List String) (i : Int) (h0 : 0 ≤ i)
    (h1 : i < (xs.length : Int)) :
    ∃ hlt : i.toNat < xs.length, arrayAt xs i = JsValue.str (xs.get ⟨i.toNat, hlt⟩) := by
  have hlt : i.toNat < xs.length := by omega
  refine ⟨hlt, ?_⟩
  have hneg : ¬ (i < 0) := by omega
  simp only [arrayAt, hneg, if_false, List.get?_eq_get hlt]

theorem HistoryManager.push_cursor_nonneg (h : HistoryManager) (h0 : 0 ≤ h.currentIndex)
    (s : String) : 0 ≤ (h.push s).currentIndex := by
  simp only [HistoryManager.push]
  split_ifs <;> simp only <;> omega

theorem HistoryManager.cursorOk_step (h : HistoryManager) (op : HistoryOp) (hw : h.CursorOk) :
    (h.step op).CursorOk := by
  cases op with
  | init s => simp [HistoryManager.step, HistoryManager.initialise, HistoryManager.CursorOk]
  | push s =>
    have hl := HistoryManager.push_length h hw s
    have hlen : (0 : Int) ≤ ((h.push s).states.length : Int) := Int.ofNat_nonneg _
    simp only [HistoryManager.step, HistoryManager.CursorOk]
    omega
  | undo =>
    obtain ⟨h1, h2⟩ := hw
    by_cases hc : h.canUndo = true
    · have hpos : h.currentIndex > 0 := by simpa [HistoryManager.canUndo] using hc
      simp only [HistoryManager.step, HistoryManager.undo_of_canUndo h hc,
        HistoryManager.CursorOk]
      omega
    · have hc2 : h.canUndo = false := by simpa using hc
      simp only [HistoryManager.step, HistoryManager.undo_of_not_canUndo h hc2,
        HistoryManager.CursorOk]
      omega
  | redo =>
    obtain ⟨h1, h2⟩ := hw
    by_cases hc : h.canRedo = true
    · have hpos : h.currentIndex < (h.states.length : Int) - 1 := by
        simpa [HistoryManager.canRedo] using hc
      simp only [HistoryManager.step, HistoryManager.redo_of_canRedo h hc,
        HistoryManager.CursorOk]
      omega
    · have hc2 : h.canRedo = false := by simpa using hc
      simp only [HistoryManager.step, HistoryManager.redo_of_not_canRedo h hc2,
        HistoryManager.CursorOk]
      omega

theorem HistoryManager.nonneg_step (h : HistoryManager) (op : HistoryOp)
    (h0 : 0 ≤ h.currentIndex) : 0 ≤ (h.step op).currentIndex := by
  cases op with
  | init s => simp [HistoryManager.step, HistoryManager.initialise]
  | push s => exact HistoryManager.push_cursor_nonneg h h0 s
  | undo =>
    by_cases hc : h.canUndo = true
    · have hpos : h.currentIndex > 0 := by simpa [HistoryManager.canUndo] using hc
      simp only [HistoryManager.step, HistoryManager.undo_of_canUndo h hc]
      omega
    · have hc2 : h.canUndo = false := by simpa using hc
      simpa only [HistoryManager.step, HistoryManager.undo_of_not_canUndo h hc2] using h0
  | redo =>
    by_cases hc : h.canRedo = true
    · simp only [HistoryManager.step, HistoryManager.redo_of_canRedo h hc]
      omega
    · have hc2 : h.canRedo = false := by simpa using hc
      simpa only [HistoryManager.step, HistoryManager.redo_of_not_canRedo h hc2] using h0

theorem HistoryManager.Reachable.cursorOk {h : HistoryManager} (hr : h.Reachable) :
    h.CursorOk := by
  induction hr with
  | fresh c => simp [HistoryManager.CursorOk, HistoryManager.constructor]
  | step h op _ ih => exact HistoryManager.cursorOk_step h op ih
  | flag h b _ ih => exact ih

theorem HistoryManager.Initialised.cursorIn {h : HistoryManager} (hr : h.Initialised) :
    h.CursorOk ∧ 0 ≤ h.currentIndex := by
  induction hr with
  | init h s _ => simp [HistoryManager.CursorOk, HistoryManager.initialise]
  | step h op _ ih => exact ⟨HistoryManager.cursorOk_step h op ih.1,
      HistoryManager.nonneg_step h op ih.2⟩
  | flag h b _ ih => exact ih

theorem HistoryManager.push_of_cursor_at_end (h : HistoryManager) (s : String)
    (hend : h.currentIndex = (h.states.length : Int) - 1) :
    h.push s =
      if (h.states ++ [s]).length > h.maxStates then { h with states := (h.states ++ [s]).tail }
      else { h with states := h.states ++ [s], currentIndex := h.currentIndex + 1 } := by
  have hc : ¬ (h.currentIndex < (h.states.length : Int) - 1) := by omega
  simp only [HistoryManager.push, hc, if_false]

theorem HistoryManager.push_states_eq (h : HistoryManager) (hw : h.CursorOk) (s : String) :
    (h.push s).states =
      if (h.states.take (h.currentIndex + 1).toNat ++ [s]).length > h.maxStates then
        (h.states.take (h.currentIndex + 1).toNat ++ [s]).tail
      else h.states.take (h.currentIndex + 1).toNat ++ [s] := by
  obtain ⟨h1, h2⟩ := hw
  by_cases hc : h.currentIndex < (h.states.length : Int) - 1
  · have hneg : ¬ (h.currentIndex + 1 < 0) := by omega
    simp only [HistoryManager.push, sliceTo, hc, hneg, if_true, if_false]
    split_ifs <;> rfl
  · have hall : h.states.take (h.currentIndex + 1).toNat = h.states := by
      apply List.take_of_length_le
      omega
    rw [hall]
    simp only [HistoryManager.push, hc, if_false]
    split_ifs <;> rfl

theorem HistoryManager.push_states_concat (h : HistoryManager) (hw : h.CursorOk)
    (h0 : 0 ≤ h.currentIndex) (s : String) : ∃ ys, (h.push s).states = ys ++ [s] := by
  rw [HistoryManager.push_states_eq h hw s]
  obtain ⟨h1, h2⟩ := hw
  cases hx : h.states.take (h.currentIndex + 1).toNat with
  | nil =>
    have := congrArg List.length hx
    simp only [List.length_take, List.length_nil] at this
    omega
  | cons x xs =>
    split_ifs
    · exact ⟨xs, rfl⟩
    · exact ⟨x :: xs, rfl⟩

/-! ### Characterisations of `UndoManager.undo` / `redo` -/

theorem UndoManager.undo_of_short {ε : Type} (m : UndoManager) (board : Board ε)
    (hs : m.history.length < 2) :
    m.undo board = { result := .ok false, state := m, imports := [] } := by
  simp [UndoManager.undo, hs]

theorem UndoManager.undo_of_concat {ε : Type} (m : UndoManager) (board : Board ε)
    (pre : List String) (p c : String) (hh : m.history = pre ++ [p, c]) :
    m.undo board =
      { result := (board.importData p false
            { m with history := pre ++ [p], future := m.future ++ [c],
                     isRestoring := true }).1.map (fun _ => true),
        state := { (board.importData p false
            { m with history := pre ++ [p], future := m.future ++ [c],
                     isRestoring := true }).2 with isRestoring := false },
        imports := [{ data := p, shouldSave := false, restoring := true }] } := by
  obtain ⟨mx, hist, fut, flag⟩ := m
  simp only at hh
  subst hh
  have hlen : ¬ ((pre ++ [p, c]).length < 2) := by simp
  have hd : (pre ++ [p, c]).dropLast = pre ++ [p] := by
    rw [show pre ++ [p, c] = (pre ++ [p]) ++ [c] by simp, List.dropLast_concat]
  simp only [UndoManager.undo, hlen, dite_false, hd]
  simp

theorem exists_concat_of_two_le (xs : List String) (h : 2 ≤ xs.length) :
    ∃ pre p c, xs = pre ++ [p, c] := by
  rcases List.eq_nil_or_concat xs with h0 | ⟨ys, c, h1⟩
  · simp [h0] at h
  · rcases List.eq_nil_or_concat ys with h2 | ⟨zs, p, h3⟩
    · subst h1; subst h2; simp at h
    · exact ⟨zs, p, c, by rw [h1, h3]; simp⟩

theorem UndoManager.redo_of_empty {ε : Type} (m : UndoManager) (board : Board ε)
    (hs : m.future = []) :
    m.redo board = { result := .ok false, state := m, imports := [] } := by
  simp [UndoManager.redo, hs]

theorem UndoManager.redo_of_concat {ε : Type} (m : UndoManager) (board : Board ε)
    (pre : List String) (c : String) (hf : m.future = pre ++ [c]) :
    m.redo board =
      { result := (board.importData c false
            { m with future := pre, history := m.history ++ [c],
                     isRestoring := true }).1.map (fun _ => true),
        state := { (board.importData c false
            { m with future := pre, history := m.history ++ [c],
                     isRestoring := true }).2 with isRestoring := false },
        imports := [{ data := c, shouldSave := false, restoring := true }] } := by
  obtain ⟨mx, hist, fut, flag⟩ := m
  simp only at hf
  subst hf
  simp [UndoManager.redo]

theorem UndoManager.pushSnapshot_future (m : UndoManager) (s : String)
    (hm : m.isRestoring = false) : (m.pushSnapshot s).future = [] := by
  simp only [UndoManager.pushSnapshot, hm, Bool.false_eq_true, if_false]
  split_ifs <;> rfl

theorem UndoManager.pushSnapshot_of_restoring (m : UndoManager) (s : String)
    (hm : m.isRestoring = true) : m.pushSnapshot s = m := by
  simp [UndoManager.pushSnapshot, hm]

theorem UndoManager.pushSnapshot_duplicate (m : UndoManager) (s : String)
    (hlast : m.history.getLast? = some s) :
    m.pushSnapshot s = if m.isRestoring then m else { m with future := [] } := by
  have hpos : m.history.length > 0 := by
    cases hh : m.history with
    | nil => rw [hh] at hlast; simp at hlast
    | cons y ys => simp
  simp [UndoManager.pushSnapshot, hlast, hpos]

theorem UndoManager.undo_state_isRestoring {ε : Type} (m : UndoManager) (board : Board ε)
    (hs : 2 ≤ m.history.length) : (m.undo board).state.isRestoring = false := by
  obtain ⟨pre, p, c, hh⟩ := exists_concat_of_two_le m.history hs
  rw [UndoManager.undo_of_concat m board pre p c hh]

theorem UndoManager.undo_result_true {ε : Type} (m : UndoManager) (board : Board ε)
    (hr : (m.undo board).result = .ok true) : 2 ≤ m.history.length := by
  by_contra hlt
  rw [UndoManager.undo_of_short m board (by omega)] at hr
  simp at hr

theorem UndoManager.undo_result_cases {ε : Type} (m : UndoManager) (board : Board ε)
    (hs : 2 ≤ m.history.length) :
    (m.undo board).result = .ok true ∨ ∃ e, (m.undo board).result = .error e := by
  obtain ⟨pre, p, c, hh⟩ := exists_concat_of_two_le m.history hs
  rw [UndoManager.undo_of_concat m board pre p c hh]
  simp only
  cases (board.importData p false _).1 with
  | ok v => exact Or.inl rfl
  | error e => exact Or.inr ⟨e, rfl⟩

theorem exists_concat_of_ne_nil (xs : List String) (h : xs ≠ []) :
    ∃ pre c, xs = pre ++ [c] := by
  rcases List.eq_nil_or_concat xs with h0 | ⟨ys, c, h1⟩
  · exact absurd h0 h
  · exact ⟨ys, c, by rw [h1]; simp⟩

theorem UndoManager.redo_result_cases {ε : Type} (m : UndoManager) (board : Board ε)
    (hs : m.future ≠ []) :
    (m.redo board).result = .ok true ∨ ∃ e, (m.redo board).result = .error e := by
  obtain ⟨pre, c, hf⟩ := exists_concat_of_ne_nil m.future hs
  rw [UndoManager.redo_of_concat m board pre c hf]
  simp only
  cases (board.importData c false _).1 with
  | ok v => exact Or.inl rfl
  | error e => exact Or.inr ⟨e, rfl⟩

theorem arrayAt_str_mem (xs : List String) (i : Int) (s : String)
    (h : arrayAt xs i = JsValue.str s) : s ∈ xs := by
  unfold arrayAt at h
  split_ifs at h
  cases hg : xs.get? i.toNat with
  | none => rw [hg] at h; simp at h
  | some t =>
    rw [hg] at h
    simp only [JsValue.str.injEq] at h
    subst h
    exact List.get?_mem hg

theorem pushAll_of_restoring (m : UndoManager) (ps : List String)
    (hm : m.isRestoring = true) : pushAll m ps = m := by
  induction ps with
  | nil => rfl
  | cons p ps ih =>
    simp only [pushAll, List.foldl_cons] at ih ⊢
    rw [UndoManager.pushSnapshot_of_restoring m p hm]
    exact ih

theorem UndoManager.redo_state_isRestoring {ε : Type} (m : UndoManager) (board : Board ε)
    (hs : m.future ≠ []) : (m.redo board).state.isRestoring = false := by
  obtain ⟨pre, c, hf⟩ := exists_concat_of_ne_nil m.future hs
  rw [UndoManager.redo_of_concat m board pre c hf]

theorem HistoryManager.push_maxStates (h : HistoryManager) (s : String) :
    (h.push s).maxStates = h.maxStates := by
  simp only [HistoryManager.push]
  split_ifs <;> rfl

theorem HistoryManager.step_maxStates (h : HistoryManager) (op : HistoryOp) :
    (h.step op).maxStates = h.maxStates := by
  cases op with
  | init s => rfl
  | push s => exact HistoryManager.push_maxStates h s
  | undo =>
    simp only [HistoryManager.step, HistoryManager.undo]
    split_ifs <;> rfl
  | redo =>
    simp only [HistoryManager.step, HistoryManager.redo]
    split_ifs <;> rfl

theorem HistoryManager.step_states_length (h : HistoryManager) (op : HistoryOp)
    (hw : h.CursorOk) (hc : 1 ≤ h.maxStates) (hl : h.states.length ≤ h.maxStates) :
    (h.step op).states.length ≤ h.maxStates := by
  cases op with
  | init s => simpa [HistoryManager.step, HistoryManager.initialise] using hc
  | push s =>
    obtain ⟨h1, h2⟩ := hw
    simp only [HistoryManager.step]
    rw [HistoryManager.push_states_eq h ⟨h1, h2⟩ s]
    split_ifs with hfull
    · simp only [List.length_tail, List.length_append, List.length_take,
        List.length_singleton]
      omega
    · omega
  | undo =>
    simp only [HistoryManager.step, HistoryManager.undo]
    split_ifs <;> exact hl
  | redo =>
    simp only [HistoryManager.step, HistoryManager.redo]
    split_ifs <;> exact hl

theorem UndoManager.pushSnapshot_maxHistory (m : UndoManager) (s : String) :
    (m.pushSnapshot s).maxHistory = m.maxHistory := by
  simp only [UndoManager.pushSnapshot]
  split_ifs <;> rfl

theorem UndoManager.pushSnapshot_bound (m : UndoManager) (s : String)
    (hb : m.history.length + m.future.length ≤ m.maxHistory) :
    (m.pushSnapshot s).history.length + (m.pushSnapshot s).future.length ≤ m.maxHistory := by
  simp only [UndoManager.pushSnapshot]
  split_ifs with h1 h2 h3
  · exact hb
  · simp only [List.length_nil]
    omega
  · simp only [List.length_tail, List.length_append, List.length_singleton, List.length_nil]
    omega
  · simp only [List.length_append, List.length_singleton, List.length_nil] at h3 ⊢
    omega

theorem UndoManager.step_bound {ε : Type} (board : Board ε) (m : UndoManager) (op : UndoOp)
    (hquiet : ∀ d b k, board.importData d b k = (.ok (), k))
    (hb : m.history.length + m.future.length ≤ m.maxHistory) :
    (m.step board op).maxHistory = m.maxHistory ∧
      (m.step board op).history.length + (m.step board op).future.length ≤ m.maxHistory := by
  cases op with
  | push s =>
    exact ⟨UndoManager.pushSnapshot_maxHistory m s, UndoManager.pushSnapshot_bound m s hb⟩
  | undo =>
    simp only [UndoManager.step]
    by_cases h2 : 2 ≤ m.history.length
    · obtain ⟨pre, p, c, hh⟩ := exists_concat_of_two_le m.history h2
      rw [UndoManager.undo_of_concat m board pre p c hh]
      simp only [hquiet, List.length_append, List.length_singleton]
      rw [hh] at hb
      simp only [List.length_append, List.length_cons, List.length_nil] at hb
      exact ⟨trivial, by omega⟩
    · rw [UndoManager.undo_of_short m board (by omega)]
      exact ⟨rfl, hb⟩
  | redo =>
    simp only [UndoManager.step]
    by_cases h2 : m.future = []
    · rw [UndoManager.redo_of_empty m board h2]
      exact ⟨rfl, hb⟩
    · obtain ⟨pre, c, hf⟩ := exists_concat_of_ne_nil m.future h2
      rw [UndoManager.redo_of_concat m board pre c hf]
      simp only [hquiet, List.length_append, List.length_singleton]
      rw [hf] at hb
      simp only [List.length_append, List.length_singleton] at hb
      exact ⟨trivial, by omega⟩
  | clear =>
    simp only [UndoManager.step, UndoManager.clear, List.length_nil]
    exact ⟨trivial, by omega⟩

theorem repeatCall_undo {ε : Type} (board : Board ε)
    (hquiet : ∀ d b k, board.importData d b k = (.ok (), k)) :
    ∀ (k : Nat) (m : UndoManager), k + 1 ≤ m.history.length →
      (repeatCall (fun x => x.undo board) k m).result = .ok (List.replicate k true) ∧
      (repeatCall (fun x => x.undo board) k m).state.history =
        m.history.take (m.history.length - k) ∧
      (repeatCall (fun x => x.undo board) k m).state.future =
        m.future ++ (m.history.drop (m.history.length - k)).reverse := by
  intro k
  induction k with
  | zero =>
    intro m _
    simp [repeatCall]
  | succ k ih =>
    intro m hk
    obtain ⟨pre, p, c, hh⟩ := exists_concat_of_two_le m.history (by omega)
    have hu := UndoManager.undo_of_concat m board pre p c hh
    simp only [hquiet] at hu
    have hlen : k + 1 ≤ (pre ++ [p]).length := by
      rw [hh] at hk
      simp only [List.length_append, List.length_cons, List.length_nil] at hk
      simp only [List.length_append, List.length_singleton]
      omega
    obtain ⟨i1, i2, i3⟩ := ih
      { m with history := pre ++ [p], future := m.future ++ [c], isRestoring := false }
      hlen
    have hsplit : pre ++ [p, c] = (pre ++ [p]) ++ [c] := by simp
    have hn : (pre ++ [p, c]).length - (k + 1) = (pre ++ [p]).length - k := by
      simp only [List.length_append, List.length_cons, List.length_nil]
      omega
    have hle : (pre ++ [p]).length - k ≤ (pre ++ [p]).length := Nat.sub_le _ _
    simp only [repeatCall, hu, Except.map]
    refine ⟨?_, ?_, ?_⟩
    · rw [i1]
      simp [List.replicate_succ]
    · rw [i2, hh, hn, hsplit, List.take_append_of_le_length hle]
    · rw [i3, hh, hn, hsplit, List.drop_append_of_le_length hle]
      simp

theorem repeatCall_redo {ε : Type} (board : Board ε)
    (hquiet : ∀ d b k, board.importData d b k = (.ok (), k)) :
    ∀ (g f : List String) (m : UndoManager), m.future = f ++ g →
      (repeatCall (fun x => x.redo board) g.length m).result =
        .ok (List.replicate g.length true) ∧
      (repeatCall (fun x => x.redo board) g.length m).state.history =
        m.history ++ g.reverse ∧
      (repeatCall (fun x => x.redo board) g.length m).state.future = f ∧
      (repeatCall (fun x => x.redo board) g.length m).imports.map ImportCall.data =
        g.reverse := by
  intro g
  induction g using List.reverseRecOn with
  | nil =>
    intro f m hf
    simpa [repeatCall] using hf
  | append_singleton g c ih =>
    intro f m hf
    have hf2 : m.future = (f ++ g) ++ [c] := by rw [hf]; simp
    have hr := UndoManager.redo_of_concat m board (f ++ g) c hf2
    simp only [hquiet] at hr
    obtain ⟨i1, i2, i3, i4⟩ := ih f
      { m with future := f ++ g, history := m.history ++ [c], isRestoring := false } rfl
    have hlen : (g ++ [c]).length = g.length + 1 := by simp
    rw [hlen]
    simp only [repeatCall, hr, Except.map]
    refine ⟨?_, ?_, ?_, ?_⟩
    · rw [i1]
      simp [List.replicate_succ]
    · rw [i2]
      simp
    · exact i3
    · rw [List.map_append, i4]
      simp

theorem FileManager.undo_imports_of_str {ε : Type} (fm : FileManager ε) (s : String)
    (hs : fm.historyManager.undo.1 = JsValue.str s) (hne : s ≠ "") :
    fm.undo.imports = [{ data := s, shouldSave := false, restoring := true }] := by
  simp only [FileManager.undo, hs, JsValue.falsy, hne, decide_False, Bool.false_eq_true,
    if_false]
  cases (fm.fileReader.importData s false _).1 <;> rfl

theorem FileManager.redo_imports_of_str {ε : Type} (fm : FileManager ε) (s : String)
    (hs : fm.historyManager.redo.1 = JsValue.str s) (hne : s ≠ "") :
    fm.redo.imports = [{ data := s, shouldSave := false, restoring := true }] := by
  simp only [FileManager.redo, hs, JsValue.falsy, hne, decide_False, Bool.false_eq_true,
    if_false]
  cases (fm.fileReader.importData s false _).1 <;> rfl

theorem FileManager.undo_of_falsy {ε : Type} (fm : FileManager ε)
    (hs : fm.historyManager.undo.1.falsy = true) :
    fm.undo = { result := .ok (), state := fm.historyManager.undo.2, imports := [] } := by
  simp [FileManager.undo, hs]

theorem FileManager.redo_of_falsy {ε : Type} (fm : FileManager ε)
    (hs : fm.historyManager.redo.1.falsy = true) :
    fm.redo = { result := .ok (), state := fm.historyManager.redo.2, imports := [] } := by
  simp [FileManager.redo, hs]

/-! ### The simulation between the two managers -/

theorem arrayAt_append_cons (pre post : List String) (x : String) (i : Int)
    (hi : i = (pre.length : Int)) : arrayAt (pre ++ x :: post) i = JsValue.str x := by
  subst hi
  have hneg : ¬ ((pre.length : Int) < 0) := by omega
  have hget : (pre ++ x :: post).get? pre.length = some x := by
    rw [List.get?_eq_getElem?, List.getElem?_append_right (Nat.le_refl _)]
    simp
  simp only [arrayAt, hneg, if_false, Int.toNat_ofNat, hget]

theorem Simulates.take_eq {h : HistoryManager} {m : UndoManager} (hs : Simulates h m) :
    h.states.take (h.currentIndex + 1).toNat = m.history ∧
      h.states.drop (h.currentIndex + 1).toNat = m.future.reverse := by
  obtain ⟨h1, h2, h3, _, _⟩ := hs
  have hpos : 0 < m.history.length := List.length_pos.mpr h2
  have hn : (h.currentIndex + 1).toNat = m.history.length := by omega
  rw [hn, h1]
  simp

theorem Simulates.related {h : HistoryManager} {m : UndoManager} (hs : Simulates h m) :
    Related h m := by
  obtain ⟨t1, t2⟩ := hs.take_eq
  exact ⟨t1.symm, by rw [t2, List.reverse_reverse]⟩

theorem Simulates.cursor_in_range {h : HistoryManager} {m : UndoManager} (hs : Simulates h m) :
    h.CursorOk ∧ 0 ≤ h.currentIndex := by
  obtain ⟨h1, h2, h3, _, _⟩ := hs
  have hpos : 0 < m.history.length := List.length_pos.mpr h2
  have hlen : h.states.length = m.history.length + m.future.length := by
    rw [h1]; simp
  exact ⟨⟨by omega, by omega⟩, by omega⟩

theorem Simulates.queries {h : HistoryManager} {m : UndoManager} (hs : Simulates h m) :
    h.canUndo = m.canUndo ∧ h.canRedo = m.canRedo := by
  obtain ⟨h1, h2, h3, _, _⟩ := hs
  have hpos : 0 < m.history.length := List.length_pos.mpr h2
  have hlen : h.states.length = m.history.length + m.future.length := by
    rw [h1]; simp
  constructor
  · simp only [HistoryManager.canUndo, UndoManager.canUndo, decide_eq_decide]
    omega
  · simp only [HistoryManager.canRedo, UndoManager.canRedo, decide_eq_decide]
    omega

theorem UndoManager.pushSnapshot_fresh (m : UndoManager) (s : String)
    (hm : m.isRestoring = false) (hnd : m.history.getLast? ≠ some s) :
    m.pushSnapshot s =
      { m with
        future := [],
        history := if (m.history ++ [s]).length > m.maxHistory then (m.history ++ [s]).tail
          else m.history ++ [s] } := by
  simp only [UndoManager.pushSnapshot, hm, Bool.false_eq_true, if_false, hnd, and_false]
  split_ifs <;> rfl

theorem Simulates.current {h : HistoryManager} {m : UndoManager} (hs : Simulates h m) :
    ∃ pre c, m.history = pre ++ [c] ∧ arrayAt h.states h.currentIndex = JsValue.str c := by
  obtain ⟨h1, h2, h3, _, _⟩ := hs
  obtain ⟨pre, c, hc⟩ := exists_concat_of_ne_nil m.history h2
  refine ⟨pre, c, hc, ?_⟩
  rw [h1, hc, List.append_assoc]
  apply arrayAt_append_cons
  rw [h3, hc]
  simp

theorem Simulates.push_step {h : HistoryManager} {m : UndoManager} (hs : Simulates h m)
    (s : String) (hfresh : arrayAt h.states h.currentIndex ≠ JsValue.str s) :
    Simulates (h.push s) (m.pushSnapshot s) := by
  obtain ⟨pre, c, hc, hcur⟩ := hs.current
  obtain ⟨hw, h0⟩ := hs.cursor_in_range
  obtain ⟨t1, _⟩ := hs.take_eq
  obtain ⟨h1, h2, h3, h4, h5⟩ := hs
  have hnd : m.history.getLast? ≠ some s := by
    rw [hc, List.getLast?_concat]
    intro hcs
    apply hfresh
    rw [hcur, Option.some.inj hcs]
  have hstates := HistoryManager.push_states_eq h hw s
  rw [t1, ← h4] at hstates
  have hpush := UndoManager.pushSnapshot_fresh m s h5 hnd
  have hend := HistoryManager.push_length h hw s
  have hmax := HistoryManager.push_maxStates h s
  rw [hpush]
  refine ⟨by rw [hstates]; simp, ?_, ?_, ?_, h5⟩
  · simp only
    rw [hc]
    split_ifs
    · cases pre <;> simp
    · simp
  · rw [hend, hstates]
  · simp only
    rw [hmax, h4]

theorem Simulates.undo_step {ε : Type} {h : HistoryManager} {m : UndoManager} (board : Board ε)
    (hquiet : ∀ d b k, board.importData d b k = (.ok (), k)) (hs : Simulates h m) :
    Simulates h.undo.2 (m.undo board).state ∧
      ((h.undo.1 = JsValue.null ∧
          m.undo board = { result := .ok false, state := m, imports := [] }) ∨
        (∃ p, h.undo.1 = JsValue.str p ∧ (m.undo board).result = .ok true ∧
          (m.undo board).imports = [{ data := p, shouldSave := false, restoring := true }])) := by
  obtain ⟨q1, _⟩ := hs.queries
  by_cases h2 : 2 ≤ m.history.length
  · have hcu : h.canUndo = true := by
      rw [q1]; simpa [UndoManager.canUndo] using h2
    obtain ⟨pre, p, c, hh⟩ := exists_concat_of_two_le m.history h2
    have hu := UndoManager.undo_of_concat m board pre p c hh
    simp only [hquiet] at hu
    obtain ⟨h1, _, h3, h4, h5⟩ := hs
    have hst : h.states = pre ++ p :: (c :: m.future.reverse) := by
      rw [h1, hh]; simp
    have hidx : h.currentIndex - 1 = (pre.length : Int) := by
      rw [h3, hh]
      simp only [List.length_append, List.length_cons, List.length_nil]
      push_cast
      omega
    rw [HistoryManager.undo_of_canUndo h hcu, hu]
    refine ⟨⟨?_, ?_, ?_, h4, rfl⟩, Or.inr ⟨p, ?_, rfl, rfl⟩⟩
    · simp only [hst]; simp
    · simp
    · simp only [hidx]; simp
    · simp only [hst]
      exact arrayAt_append_cons pre _ p _ hidx
  · have hcu : h.canUndo = false := by
      rw [q1]; simpa [UndoManager.canUndo] using h2
    have hu := UndoManager.undo_of_short m board (by omega)
    rw [HistoryManager.undo_of_not_canUndo h hcu, hu]
    exact ⟨hs, Or.inl ⟨rfl, rfl⟩⟩

theorem Simulates.redo_step {ε : Type} {h : HistoryManager} {m : UndoManager} (board : Board ε)
    (hquiet : ∀ d b k, board.importData d b k = (.ok (), k)) (hs : Simulates h m) :
    Simulates h.redo.2 (m.redo board).state ∧
      ((h.redo.1 = JsValue.null ∧
          m.redo board = { result := .ok false, state := m, imports := [] }) ∨
        (∃ p, h.redo.1 = JsValue.str p ∧ (m.redo board).result = .ok true ∧
          (m.redo board).imports = [{ data := p, shouldSave := false, restoring := true }])) := by
  obtain ⟨_, q2⟩ := hs.queries
  by_cases h2 : m.future = []
  · have hcr : h.canRedo = false := by
      rw [q2]; simp [UndoManager.canRedo, h2]
    have hr := UndoManager.redo_of_empty m board h2
    rw [HistoryManager.redo_of_not_canRedo h hcr, hr]
    exact ⟨hs, Or.inl ⟨rfl, rfl⟩⟩
  · have hcr : h.canRedo = true := by
      rw [q2]; simpa [UndoManager.canRedo, List.length_pos] using h2
    obtain ⟨pre, c, hf⟩ := exists_concat_of_ne_nil m.future h2
    have hr := UndoManager.redo_of_concat m board pre c hf
    simp only [hquiet] at hr
    obtain ⟨h1, h2', h3, h4, h5⟩ := hs
    have hst : h.states = m.history ++ c :: pre.reverse := by
      rw [h1, hf]; simp
    have hidx : h.currentIndex + 1 = (m.history.length : Int) := by omega
    rw [HistoryManager.redo_of_canRedo h hcr, hr]
    refine ⟨⟨?_, ?_, ?_, h4, rfl⟩, Or.inr ⟨c, ?_, rfl, rfl⟩⟩
    · simp only [hst]; simp
    · simp
    · simp only [hidx]; simp
    · simp only [hst]
      exact arrayAt_append_cons m.history _ c _ hidx

theorem Simulates.observe_step {ε : Type} {h : HistoryManager} {m : UndoManager} (board : Board ε)
    (hquiet : ∀ d b k, board.importData d b k = (.ok (), k)) (hs : Simulates h m)
    (op : EditOp) (hd : dupFree h [op] = true) :
    Simulates (h.observe op).2 (m.observe board op).2 ∧
      (h.observe op).1 = (m.observe board op).1 := by
  cases op with
  | push s =>
    have hfresh : arrayAt h.states h.currentIndex ≠ JsValue.str s := by
      simpa [dupFree] using hd
    have hn := hs.push_step s hfresh
    obtain ⟨q1, q2⟩ := hn.queries
    refine ⟨hn, ?_⟩
    simp only [HistoryManager.observe, UndoManager.observe, q1, q2]
  | undo =>
    obtain ⟨hn, hcase⟩ := hs.undo_step board hquiet
    obtain ⟨q1, q2⟩ := hn.queries
    refine ⟨hn, ?_⟩
    rcases hcase with ⟨hnull, hu⟩ | ⟨p, hp, hres, himp⟩
    · simp only [HistoryManager.observe, UndoManager.observe, q1, q2, hnull]
      simp [hu]
    · simp only [HistoryManager.observe, UndoManager.observe, q1, q2, hp, hres, himp]
      simp
  | redo =>
    obtain ⟨hn, hcase⟩ := hs.redo_step board hquiet
    obtain ⟨q1, q2⟩ := hn.queries
    refine ⟨hn, ?_⟩
    rcases hcase with ⟨hnull, hu⟩ | ⟨p, hp, hres, himp⟩
    · simp only [HistoryManager.observe, UndoManager.observe, q1, q2, hnull]
      simp [hu]
    · simp only [HistoryManager.observe, UndoManager.observe, q1, q2, hp, hres, himp]
      simp

theorem dupFree_cons (h : HistoryManager) (op : EditOp) (rest : List EditOp)
    (hd : dupFree h (op :: rest) = true) :
    dupFree h [op] = true ∧ dupFree (h.observe op).2 rest = true := by
  cases op with
  | push s =>
    simp only [dupFree, Bool.and_eq_true, Bool.and_true] at hd ⊢
    exact ⟨hd.1, hd.2⟩
  | undo => exact ⟨rfl, hd⟩
  | redo => exact ⟨rfl, hd⟩

theorem Simulates.start (c : Nat) (hc : 1 ≤ c) (s0 : String) :
    Simulates ((HistoryManager.withCapacity c).initialise s0)
      ((UndoManager.constructor c).pushSnapshot s0) := by
  have hno : ¬ (1 > c) := by omega
  simp [Simulates, HistoryManager.withCapacity, HistoryManager.initialise,
    HistoryManager.constructor, UndoManager.constructor, UndoManager.pushSnapshot, hno]

theorem Simulates.after_calls {ε : Type} (board : Board ε)
    (hquiet : ∀ d b k, board.importData d b k = (.ok (), k)) :
    ∀ (ops : List EditOp) (h : HistoryManager) (m : UndoManager), Simulates h m →
      dupFree h ops = true →
      Simulates (h.after ops) (m.after board ops) ∧ h.trace ops = m.trace board ops := by
  intro ops
  induction ops with
  | nil => intro h m hs _; exact ⟨hs, rfl⟩
  | cons op rest ih =>
    intro h m hs hd
    obtain ⟨hd1, hd2⟩ := dupFree_cons h op rest hd
    obtain ⟨hn, hobs⟩ := hs.observe_step board hquiet op hd1
    obtain ⟨ha, ht⟩ := ih _ _ hn hd2
    refine ⟨?_, ?_⟩
    · simpa only [HistoryManager.after, UndoManager.after, List.foldl_cons] using ha
    · simp only [HistoryManager.trace, UndoManager.trace, hobs, ht]

theorem dupFree_take (n : Nat) :
    ∀ (ops : List EditOp) (h : HistoryManager), dupFree h ops = true →
      dupFree h (ops.take n) = true := by
  induction n with
  | zero => intro ops h _; simp [dupFree]
  | succ n ih =>
    intro ops h hd
    cases ops with
    | nil => simpa using hd
    | cons op rest =>
      obtain ⟨hd1, hd2⟩ := dupFree_cons h op rest hd
      have hrec := ih rest _ hd2
      cases op with
      | push s =>
        simp only [List.take_succ_cons, dupFree, Bool.and_eq_true]
        simp only [dupFree, Bool.and_true] at hd1
        exact ⟨hd1, hrec⟩
      | undo => simpa only [List.take_succ_cons, dupFree] using hrec
      | redo => simpa only [List.take_succ_cons, dupFree] using hrec

theorem HistoryManager.push_flag_irrelevant (h : HistoryManager) (s : String) (b : Bool) :
    HistoryManager.push { h with isRestoring := b } s = { h.push s with isRestoring := b } := by
  simp only [HistoryManager.push]
  split_ifs <;> rfl

theorem HistoryManager.push_isRestoring (h : HistoryManager) (s : String) :
    (h.push s).isRestoring = h.isRestoring := by
  simp only [HistoryManager.push]
  split_ifs <;> rfl

theorem HistoryManager.push_records (h : HistoryManager) (s : String) (hw : h.CursorOk)
    (h0 : 0 ≤ h.currentIndex) :
    (h.push s).states.getLast? = some s ∧
      arrayAt (h.push s).states (h.push s).currentIndex = JsValue.str s := by
  have hend := HistoryManager.push_length h hw s
  obtain ⟨ys, hys⟩ := HistoryManager.push_states_concat h hw h0 s
  refine ⟨by rw [hys]; simp, ?_⟩
  rw [hys] at hend ⊢
  apply arrayAt_append_cons
  rw [hend]
  simp

/-! ## Retention of `UndoManager` (C1) -/

/-- C1. For every capacity `c ≥ 1` and every list `ps` of snapshots pushed in
order with `pushSnapshot` onto a freshly constructed `UndoManager(c)`, the
resulting `history` is the last `c` entries (all of them when there are
fewer) of `ps` with runs of consecutive equal snapshots collapsed, and
`future` is empty. -/
theorem undoManager_retention (c : Nat) (hc : 1 ≤ c) (ps : List String) :
    (pushAll (UndoManager.constructor c) ps).history = lastEntries c (collapseRuns ps) ∧
      (pushAll (UndoManager.constructor c) ps).future = [] := by
  rw [pushAll_constructor c hc ps]
  exact ⟨rfl, rfl⟩

/-- C1 at capacity 2 with the pushes A, A, B, C, C, B: the history is
`["C", "B"]`, the last two of the collapsed sequence A, B, C, B. -/
theorem undoManager_retention_witness :
    1 ≤ 2 ∧
      (pushAll (UndoManager.constructor 2) ["A", "A", "B", "C", "C", "B"]).history =
        lastEntries 2 (collapseRuns ["A", "A", "B", "C", "C", "B"]) ∧
      (pushAll (UndoManager.constructor 2) ["A", "A", "B", "C", "C", "B"]).future = [] :=
  ⟨by decide, undoManager_retention 2 (by decide) ["A", "A", "B", "C", "C", "B"]⟩
/-! ## Consecutive equal pushes on `HistoryManager` (C2) -/

/-- C2, refuted as stated: on the manager obtained by `initialize("A")`, the
calls `push("B"); push("B")` record two entries for B (states A, B, B with
the cursor at 2) whereas a single `push("B")` records one (states A, B with
the cursor at 1). -/
theorem historyManager_double_push_counterexample :
    (HistoryManager.constructor.initialise "A").Initialised ∧
      (((HistoryManager.constructor.initialise "A").push "B").push "B").states =
        ["A", "B", "B"] ∧
      ((HistoryManager.constructor.initialise "A").push "B").states = ["A", "B"] ∧
      (((HistoryManager.constructor.initialise "A").push "B").push "B").currentIndex = 2 ∧
      ((HistoryManager.constructor.initialise "A").push "B").currentIndex = 1 ∧
      ¬ ((((HistoryManager.constructor.initialise "A").push "B").push "B").states =
            ((HistoryManager.constructor.initialise "A").push "B").states ∧
          (((HistoryManager.constructor.initialise "A").push "B").push "B").currentIndex =
            ((HistoryManager.constructor.initialise "A").push "B").currentIndex) :=
  ⟨HistoryManager.Initialised.init _ "A" (HistoryManager.Reachable.fresh 50),
    by decide, by decide, by decide, by decide, by decide⟩

/-- C2, amended. `HistoryManager.push` compares nothing: for every manager
reachable from `initialize` by `push` / `undo` / `redo` and every snapshot
`s`, the second of two consecutive `push(s)` calls appends `s` again, so the
states after `push(s); push(s)` are the states after one `push(s)` followed
by `s`, without the oldest entry when that exceeds `maxStates`; the cursor
is on the last entry; and with `maxStates ≥ 2` the timeline ends in two
entries equal to `s`. -/
theorem historyManager_double_push (h : HistoryManager) (s : String) (hr : h.Initialised) :
    ((h.push s).push s).states =
        (if ((h.push s).states ++ [s]).length > h.maxStates then
          ((h.push s).states ++ [s]).tail
        else (h.push s).states ++ [s]) ∧
      ((h.push s).push s).currentIndex = (((h.push s).push s).states.length : Int) - 1 ∧
      (2 ≤ h.maxStates → ∃ pre, ((h.push s).push s).states = pre ++ [s, s]) := by
  obtain ⟨hw, h0⟩ := hr.cursorIn
  have hend := HistoryManager.push_length h hw s
  have hw1 : (h.push s).CursorOk := HistoryManager.cursorOk_step h (.push s) hw
  have hmax : (h.push s).maxStates = h.maxStates := by
    simp only [HistoryManager.push]
    split_ifs <;> rfl
  have hstates : ((h.push s).push s).states =
      (if ((h.push s).states ++ [s]).length > h.maxStates then
        ((h.push s).states ++ [s]).tail
      else (h.push s).states ++ [s]) := by
    rw [HistoryManager.push_of_cursor_at_end (h.push s) s hend, hmax]
    split_ifs <;> rfl
  refine ⟨hstates, HistoryManager.push_length (h.push s) hw1 s, ?_⟩
  intro h2
  rw [hstates]
  obtain ⟨ys, hys⟩ := HistoryManager.push_states_concat h hw h0 s
  rw [hys]
  cases ys with
  | nil =>
    have hno : ¬ (([] ++ [s] ++ [s] : List String).length > h.maxStates) := by
      simp only [List.nil_append, List.length_append, List.length_singleton]
      omega
    rw [if_neg hno]
    exact ⟨[], rfl⟩
  | cons y ys =>
    split_ifs
    · exact ⟨ys, by simp⟩
    · exact ⟨y :: ys, by simp⟩

/-- C2 amended, at the manager initialised with A and the snapshot B. -/
theorem historyManager_double_push_witness :
    (HistoryManager.constructor.initialise "A").Initialised ∧
    (((HistoryManager.constructor.initialise "A").push "B").push "B").states =
        (if (((HistoryManager.constructor.initialise "A").push "B").states ++ ["B"]).length >
            (HistoryManager.constructor.initialise "A").maxStates then
          (((HistoryManager.constructor.initialise "A").push "B").states ++ ["B"]).tail
        else ((HistoryManager.constructor.initialise "A").push "B").states ++ ["B"]) ∧
      (((HistoryManager.constructor.initialise "A").push "B").push "B").currentIndex =
        ((((HistoryManager.constructor.initialise "A").push "B").push "B").states.length : Int)
          - 1 ∧
      (2 ≤ (HistoryManager.constructor.initialise "A").maxStates →
        ∃ pre, (((HistoryManager.constructor.initialise "A").push "B").push "B").states =
          pre ++ ["B", "B"]) :=
  ⟨HistoryManager.Initialised.init _ "A" (HistoryManager.Reachable.fresh 50),
    historyManager_double_push (HistoryManager.constructor.initialise "A") "B"
      (HistoryManager.Initialised.init _ "A" (HistoryManager.Reachable.fresh 50))⟩
/-! ## A duplicate `pushSnapshot` (C3) -/

/-- C3 at the input where the code departs from it. The manager with history
A, B and future C is the one left by `new UndoManager(100)`, pushes of A, B,
C and one `undo`; its last entry is B, yet `pushSnapshot("B")` empties
`future` (history and `isRestoring` stay as they were), because
`this.future = []` runs before the duplicate test. -/
theorem undoManager_duplicate_push_clears_future :
    ((pushAll (UndoManager.constructor 100) ["A", "B", "C"]).undo quietBoard).state =
        { maxHistory := 100, history := ["A", "B"], future := ["C"], isRestoring := false } ∧
      (UndoManager.pushSnapshot
          { maxHistory := 100, history := ["A", "B"], future := ["C"], isRestoring := false }
          "B") =
        { maxHistory := 100, history := ["A", "B"], future := [], isRestoring := false } ∧
      (UndoManager.pushSnapshot
          { maxHistory := 100, history := ["A", "B"], future := ["C"], isRestoring := false }
          "B").future ≠ ["C"] :=
  ⟨by decide, by decide, by decide⟩

/-! ## A new push invalidates redo (C4) -/

/-- C4. For every `HistoryManager` reachable from `initialize` by `push` /
`undo` / `redo` and every snapshot `S`: right after `push(S)`, `canRedo()` is
false and `redo()` returns `null` leaving the manager as it is. For every
`UndoManager` with `isRestoring` false: right after `pushSnapshot(S)`,
`future` is empty, `canRedo()` is false and `redo(board)` returns false
without calling `importData` and without changing the manager. Both hold in
particular when the push follows a successful undo. -/
theorem push_invalidates_redo {ε : Type} (h : HistoryManager) (m : UndoManager)
    (board : Board ε) (S : String) (hr : h.Initialised) (hm : m.isRestoring = false) :
    ((h.push S).canRedo = false ∧ (h.push S).redo = (JsValue.null, h.push S)) ∧
      ((m.pushSnapshot S).future = [] ∧ (m.pushSnapshot S).canRedo = false ∧
        (m.pushSnapshot S).redo board =
          { result := .ok false, state := m.pushSnapshot S, imports := [] }) ∧
      ((h.undo.2.push S).canRedo = false ∧
        (h.undo.2.push S).redo = (JsValue.null, h.undo.2.push S)) ∧
      ((m.undo board).result = .ok true →
        ((m.undo board).state.pushSnapshot S).canRedo = false ∧
        ((m.undo board).state.pushSnapshot S).redo board =
          { result := .ok false, state := (m.undo board).state.pushSnapshot S,
            imports := [] }) := by
  have hHist : ∀ g : HistoryManager, g.Initialised →
      (g.push S).canRedo = false ∧ (g.push S).redo = (JsValue.null, g.push S) := by
    intro g hg
    have hend := HistoryManager.push_length g hg.cursorIn.1 S
    have hc : (g.push S).canRedo = false := by
      simp only [HistoryManager.canRedo, decide_eq_false_iff_not]
      omega
    exact ⟨hc, HistoryManager.redo_of_not_canRedo _ hc⟩
  have hUndo : ∀ k : UndoManager, k.isRestoring = false →
      (k.pushSnapshot S).future = [] ∧ (k.pushSnapshot S).canRedo = false ∧
        (k.pushSnapshot S).redo board =
          { result := .ok false, state := k.pushSnapshot S, imports := [] } := by
    intro k hk
    have hf := UndoManager.pushSnapshot_future k S hk
    refine ⟨hf, ?_, UndoManager.redo_of_empty _ board hf⟩
    simp [UndoManager.canRedo, hf]
  refine ⟨hHist h hr, hUndo m hm, hHist _ (HistoryManager.Initialised.step h .undo hr), ?_⟩
  intro hres
  have h2 := UndoManager.undo_result_true m board hres
  exact (hUndo _ (UndoManager.undo_state_isRestoring m board h2)).2

/-- C4 at the history manager holding A, B, C with the cursor on C and the
undo manager holding A, B, with the new snapshot D. -/
theorem push_invalidates_redo_witness :
    (((HistoryManager.constructor.initialise "A").push "B").push "C").Initialised ∧
      (UndoManager.mk 100 ["A", "B"] [] false).isRestoring = false ∧
      ((UndoManager.mk 100 ["A", "B"] [] false).undo quietBoard).result = .ok true ∧
      ((((HistoryManager.constructor.initialise "A").push "B").push "C").undo.2.push "D").redo =
        (JsValue.null,
          (((HistoryManager.constructor.initialise "A").push "B").push "C").undo.2.push "D") ∧
      (((UndoManager.mk 100 ["A", "B"] [] false).undo quietBoard).state.pushSnapshot
          "D").canRedo = false :=
  have hi : (((HistoryManager.constructor.initialise "A").push "B").push "C").Initialised :=
    HistoryManager.Initialised.step _ (.push "C")
      (HistoryManager.Initialised.step _ (.push "B")
        (HistoryManager.Initialised.init _ "A" (HistoryManager.Reachable.fresh 50)))
  have hu : ((UndoManager.mk 100 ["A", "B"] [] false).undo quietBoard).result = .ok true :=
    rfl
  ⟨hi, rfl, hu,
    (push_invalidates_redo
      (((HistoryManager.constructor.initialise "A").push "B").push "C")
      (UndoManager.mk 100 ["A", "B"] [] false) quietBoard "D" hi rfl).2.2.1.2,
    ((push_invalidates_redo
      (((HistoryManager.constructor.initialise "A").push "B").push "C")
      (UndoManager.mk 100 ["A", "B"] [] false) quietBoard "D" hi rfl).2.2.2 hu).1⟩
/-! ## Undo followed by redo (C5) -/

/-- C5. For every `HistoryManager` with `0 < currentIndex < states.length`,
`undo()` followed by `redo()` leaves the manager exactly as before the undo
and the redo returns the snapshot that was current before the undo. For
every `UndoManager` with at least two history entries and an `importData`
that returns normally without touching the manager, `undo(board)` then
`redo(board)` both return true, leave `history` and `future` as before the
undo, leave `isRestoring` false, and the last snapshot handed to
`importData` is the last entry of the history before the undo. -/
theorem undo_redo_round_trip {ε : Type} (h : HistoryManager) (m : UndoManager)
    (board : Board ε) (hlo : 0 < h.currentIndex)
    (hhi : h.currentIndex < (h.states.length : Int)) (hlen : 2 ≤ m.history.length)
    (hquiet : ∀ d b k, board.importData d b k = (.ok (), k)) :
    (h.undo.2.redo.2 = h ∧ h.undo.2.redo.1 = arrayAt h.states h.currentIndex ∧
        ∃ s, s ∈ h.states ∧ h.undo.2.redo.1 = JsValue.str s) ∧
      ((m.undo board).result = .ok true ∧
        ((m.undo board).state.redo board).result = .ok true ∧
        ((m.undo board).state.redo board).state.history = m.history ∧
        ((m.undo board).state.redo board).state.future = m.future ∧
        ((m.undo board).state.redo board).state.isRestoring = false ∧
        (((m.undo board).imports ++ ((m.undo board).state.redo board).imports).getLast?).map
            ImportCall.data = m.history.getLast?) := by
  constructor
  · have hcu : h.canUndo = true := by simpa [HistoryManager.canUndo] using hlo
    rw [HistoryManager.undo_of_canUndo h hcu]
    have hcr : HistoryManager.canRedo { h with currentIndex := h.currentIndex - 1 } = true := by
      simp only [HistoryManager.canRedo, decide_eq_true_eq]
      omega
    rw [HistoryManager.redo_of_canRedo _ hcr]
    simp only [sub_add_cancel, true_and]
    obtain ⟨hlt, hval⟩ := arrayAt_of_inBounds h.states h.currentIndex (by omega) hhi
    exact ⟨h.states.get ⟨h.currentIndex.toNat, hlt⟩, List.get_mem _ _ _, hval⟩
  · obtain ⟨pre, p, c, hh⟩ := exists_concat_of_two_le m.history hlen
    rw [UndoManager.undo_of_concat m board pre p c hh]
    simp only [hquiet]
    rw [UndoManager.redo_of_concat _ board m.future c rfl]
    simp only [hquiet, hh]
    simp [Except.map]

/-- C5 at the history manager holding A, B with the cursor on B and the undo
manager holding A, B, with an import routine that does nothing. -/
theorem undo_redo_round_trip_witness :
    (0 : Int) < (HistoryManager.mk ["A", "B"] 1 50 false).currentIndex ∧
      (HistoryManager.mk ["A", "B"] 1 50 false).undo.2.redo.2 =
        HistoryManager.mk ["A", "B"] 1 50 false ∧
      ((UndoManager.mk 100 ["A", "B"] [] false).undo quietBoard).result = .ok true ∧
      (((UndoManager.mk 100 ["A", "B"] [] false).undo quietBoard).state.redo
          quietBoard).state.history = ["A", "B"] :=
  ⟨by decide,
    (undo_redo_round_trip (HistoryManager.mk ["A", "B"] 1 50 false)
      (UndoManager.mk 100 ["A", "B"] [] false) quietBoard (by decide) (by decide) (by decide)
      (fun _ _ _ => rfl)).1.1,
    (undo_redo_round_trip (HistoryManager.mk ["A", "B"] 1 50 false)
      (UndoManager.mk 100 ["A", "B"] [] false) quietBoard (by decide) (by decide) (by decide)
      (fun _ _ _ => rfl)).2.1,
    (undo_redo_round_trip (HistoryManager.mk ["A", "B"] 1 50 false)
      (UndoManager.mk 100 ["A", "B"] [] false) quietBoard (by decide) (by decide) (by decide)
      (fun _ _ _ => rfl)).2.2.2.1⟩
/-! ## Agreement of the queries with undo / redo (C6) -/

/-- C6, refuted as stated: with history A, B the query `canUndo()` is true,
yet with an `importData` that throws, `undo(board)` does not return true: the
exception leaves `undo`. Likewise for `redo` with future B. -/
theorem undoManager_queries_counterexample :
    (UndoManager.mk 100 ["A", "B"] [] false).canUndo = true ∧
      ((UndoManager.mk 100 ["A", "B"] [] false).undo (throwingBoard "boom")).result =
        .error "boom" ∧
      ((UndoManager.mk 100 ["A", "B"] [] false).undo (throwingBoard "boom")).result ≠
        .ok true ∧
      (UndoManager.mk 100 ["A"] ["B"] false).canRedo = true ∧
      ((UndoManager.mk 100 ["A"] ["B"] false).redo (throwingBoard "boom")).result =
        .error "boom" ∧
      ((UndoManager.mk 100 ["A"] ["B"] false).redo (throwingBoard "boom")).result ≠
        .ok true := by
  refine ⟨rfl, rfl, ?_, rfl, rfl, ?_⟩
  · intro h
    have h2 : (Except.error "boom" : Except String Bool) = .ok true := h
    cases h2
  · intro h
    have h2 : (Except.error "boom" : Except String Bool) = .ok true := h
    cases h2

/-- C6, amended. For every `HistoryManager` reachable from the constructor by
`initialize` / `push` / `undo` / `redo`: `undo()` returns a snapshot (an
element of `states`) iff `canUndo()` was true, `redo()` returns a snapshot
iff `canRedo()` was true, a false query means the call returns `null` and
changes nothing; `canUndo()` is `currentIndex + 1 ≥ 2`, `canRedo()` is
`currentIndex + 1 < states.length`. For every `UndoManager` and every
`importData`: `canUndo()` is `history.length ≥ 2`, `canRedo()` is `future`
non-empty; `undo(board)` returns false iff `canUndo()` was false, and returns
true iff `canUndo()` was true and no exception left the call; the same for
`redo(board)` and `canRedo()`. -/
theorem queries_agree {ε : Type} (h : HistoryManager) (m : UndoManager) (board : Board ε)
    (hr : h.Reachable) :
    ((h.canUndo = true ↔ 2 ≤ h.currentIndex + 1) ∧
        (h.canRedo = true ↔ h.currentIndex + 1 < (h.states.length : Int)) ∧
        ((∃ s, s ∈ h.states ∧ h.undo.1 = JsValue.str s) ↔ h.canUndo = true) ∧
        ((∃ s, s ∈ h.states ∧ h.redo.1 = JsValue.str s) ↔ h.canRedo = true) ∧
        (h.canUndo = false → h.undo = (JsValue.null, h)) ∧
        (h.canRedo = false → h.redo = (JsValue.null, h))) ∧
      ((m.canUndo = true ↔ 2 ≤ m.history.length) ∧
        (m.canRedo = true ↔ m.future ≠ []) ∧
        ((m.undo board).result = .ok false ↔ m.canUndo = false) ∧
        ((m.undo board).result = .ok true ↔
          (m.canUndo = true ∧ ∀ e, (m.undo board).result ≠ .error e)) ∧
        ((m.redo board).result = .ok false ↔ m.canRedo = false) ∧
        ((m.redo board).result = .ok true ↔
          (m.canRedo = true ∧ ∀ e, (m.redo board).result ≠ .error e))) := by
  obtain ⟨hw1, hw2⟩ := hr.cursorOk
  constructor
  · refine ⟨?_, ?_, ?_, ?_, HistoryManager.undo_of_not_canUndo h,
      HistoryManager.redo_of_not_canRedo h⟩
    · simp only [HistoryManager.canUndo, decide_eq_true_eq]
      omega
    · simp only [HistoryManager.canRedo, decide_eq_true_eq]
      omega
    · constructor
      · rintro ⟨s, _, hs⟩
        by_contra hc
        rw [HistoryManager.undo_of_not_canUndo h (by simpa using hc)] at hs
        simp at hs
      · intro hc
        have hpos : h.currentIndex > 0 := by simpa [HistoryManager.canUndo] using hc
        rw [HistoryManager.undo_of_canUndo h hc]
        obtain ⟨hlt, hval⟩ :=
          arrayAt_of_inBounds h.states (h.currentIndex - 1) (by omega) (by omega)
        exact ⟨_, List.get_mem _ _ _, hval⟩
    · constructor
      · rintro ⟨s, _, hs⟩
        by_contra hc
        rw [HistoryManager.redo_of_not_canRedo h (by simpa using hc)] at hs
        simp at hs
      · intro hc
        have hpos : h.currentIndex < (h.states.length : Int) - 1 := by
          simpa [HistoryManager.canRedo] using hc
        rw [HistoryManager.redo_of_canRedo h hc]
        obtain ⟨hlt, hval⟩ :=
          arrayAt_of_inBounds h.states (h.currentIndex + 1) (by omega) (by omega)
        exact ⟨_, List.get_mem _ _ _, hval⟩
  · have hcu : m.canUndo = true ↔ 2 ≤ m.history.length := by simp [UndoManager.canUndo]
    have hcr : m.canRedo = true ↔ m.future ≠ [] := by
      simp [UndoManager.canRedo, List.length_pos]
    refine ⟨hcu, hcr, ?_, ?_, ?_, ?_⟩
    · constructor
      · intro hres
        by_contra hc
        have h2 : 2 ≤ m.history.length := hcu.mp (by simpa using hc)
        rcases UndoManager.undo_result_cases m board h2 with h3 | ⟨e, h3⟩ <;>
          rw [h3] at hres <;> simp at hres
      · intro hc
        have h2 : m.history.length < 2 := by
          by_contra hge
          have := hcu.mpr (by omega)
          rw [hc] at this
          simp at this
        rw [UndoManager.undo_of_short m board h2]
    · constructor
      · intro hres
        refine ⟨hcu.mpr (UndoManager.undo_result_true m board hres), ?_⟩
        intro e he
        rw [hres] at he
        simp at he
      · rintro ⟨hc, hne⟩
        rcases UndoManager.undo_result_cases m board (hcu.mp hc) with h3 | ⟨e, h3⟩
        · exact h3
        · exact absurd h3 (hne e)
    · constructor
      · intro hres
        by_contra hc
        have h2 : m.future ≠ [] := hcr.mp (by simpa using hc)
        rcases UndoManager.redo_result_cases m board h2 with h3 | ⟨e, h3⟩ <;>
          rw [h3] at hres <;> simp at hres
      · intro hc
        have h2 : m.future = [] := by
          by_contra hge
          have := hcr.mpr hge
          rw [hc] at this
          simp at this
        rw [UndoManager.redo_of_empty m board h2]
    · constructor
      · intro hres
        constructor
        · by_contra hc
          have h2 : m.future = [] := by
            by_contra hge
            exact hc (hcr.mpr hge)
          rw [UndoManager.redo_of_empty m board h2] at hres
          simp at hres
        · intro e he
          rw [hres] at he
          simp at he
      · rintro ⟨hc, hne⟩
        rcases UndoManager.redo_result_cases m board (hcr.mp hc) with h3 | ⟨e, h3⟩
        · exact h3
        · exact absurd h3 (hne e)

/-- C6 amended, at the history manager left by `initialize("A"); push("B")`
and the undo manager holding A, B with an import routine that does nothing:
both `undo` calls succeed. -/
theorem queries_agree_witness :
    ((HistoryManager.constructor.step (.init "A")).step (.push "B")).Reachable ∧
      ((HistoryManager.constructor.step (.init "A")).step (.push "B")).canUndo = true ∧
      (∃ s, s ∈ ((HistoryManager.constructor.step (.init "A")).step (.push "B")).states ∧
        ((HistoryManager.constructor.step (.init "A")).step (.push "B")).undo.1 =
          JsValue.str s) ∧
      ((UndoManager.mk 100 ["A", "B"] [] false).undo quietBoard).result = .ok true :=
  have hr : ((HistoryManager.constructor.step (.init "A")).step (.push "B")).Reachable :=
    HistoryManager.Reachable.step _ _
      (HistoryManager.Reachable.step _ _ (HistoryManager.Reachable.fresh 50))
  ⟨hr, by decide,
    (queries_agree ((HistoryManager.constructor.step (.init "A")).step (.push "B"))
      (UndoManager.mk 100 ["A", "B"] [] false) quietBoard hr).1.2.2.1.mpr (by decide),
    ((queries_agree ((HistoryManager.constructor.step (.init "A")).step (.push "B"))
      (UndoManager.mk 100 ["A", "B"] [] false) quietBoard hr).2.2.2.2.1).mpr
      ⟨by decide, fun e he => nomatch he⟩⟩
/-! ## Release of the restoring flag by `UndoManager` (C7) -/

/-- C7, refuted as stated for "every state": called on a manager whose flag
is already set (the state `importData` runs under, hence the state seen by a
call made from inside it) and that has nothing to undo (respectively to
redo), `undo` (respectively `redo`) takes its early return and exits with
`isRestoring` still true. -/
theorem undoManager_guard_counterexample :
    ((UndoManager.mk 100 ["A"] ["B"] true).undo quietBoard).result = .ok false ∧
      ((UndoManager.mk 100 ["A"] ["B"] true).undo quietBoard).state.isRestoring = true ∧
      ((UndoManager.mk 100 ["A", "B"] [] true).redo quietBoard).result = .ok false ∧
      ((UndoManager.mk 100 ["A", "B"] [] true).redo quietBoard).state.isRestoring = true :=
  ⟨rfl, rfl, rfl, rfl⟩

/-- C7, amended. For every `UndoManager` and every behaviour of `importData`
(returning or throwing, touching the manager or not): if `isRestoring` was
false at the call, or the call gets past its early return, then
`isRestoring` is false when `undo(board)` / `redo(board)` exits; on the
early return the manager is left as it was. `importData` is entered with
`isRestoring` true (and with the entry already moved); if it throws `e`, then
`e` leaves `undo` / `redo`, and if it returns, they return true. -/
theorem undoManager_guard_release {ε : Type} (m : UndoManager) (board : Board ε) :
    ((m.isRestoring = false ∨ 2 ≤ m.history.length) →
        (m.undo board).state.isRestoring = false) ∧
      ((m.isRestoring = false ∨ m.future ≠ []) →
        (m.redo board).state.isRestoring = false) ∧
      (m.history.length < 2 → (m.undo board).state = m ∧ (m.undo board).imports = []) ∧
      (m.future = [] → (m.redo board).state = m ∧ (m.redo board).imports = []) ∧
      (∀ call ∈ (m.undo board).imports ++ (m.redo board).imports, call.restoring = true) ∧
      (∀ pre p c, m.history = pre ++ [p, c] →
        (m.undo board).imports = [{ data := p, shouldSave := false, restoring := true }] ∧
        (m.undo board).result =
          (board.importData p false
            { m with history := pre ++ [p], future := m.future ++ [c],
                     isRestoring := true }).1.map (fun _ => true) ∧
        ∀ e, (board.importData p false
            { m with history := pre ++ [p], future := m.future ++ [c],
                     isRestoring := true }).1 = .error e →
          (m.undo board).result = .error e) ∧
      (∀ pre c, m.future = pre ++ [c] →
        (m.redo board).imports = [{ data := c, shouldSave := false, restoring := true }] ∧
        (m.redo board).result =
          (board.importData c false
            { m with future := pre, history := m.history ++ [c],
                     isRestoring := true }).1.map (fun _ => true) ∧
        ∀ e, (board.importData c false
            { m with future := pre, history := m.history ++ [c],
                     isRestoring := true }).1 = .error e →
          (m.redo board).result = .error e) := by
  refine ⟨?_, ?_, ?_, ?_, ?_, ?_, ?_⟩
  · intro hor
    by_cases h2 : 2 ≤ m.history.length
    · exact UndoManager.undo_state_isRestoring m board h2
    · rw [UndoManager.undo_of_short m board (by omega)]
      rcases hor with h0 | h0
      · exact h0
      · exact absurd h0 h2
  · intro hor
    by_cases h2 : m.future = []
    · rw [UndoManager.redo_of_empty m board h2]
      rcases hor with h0 | h0
      · exact h0
      · exact absurd h2 h0
    · exact UndoManager.redo_state_isRestoring m board h2
  · intro hs
    rw [UndoManager.undo_of_short m board hs]
    exact ⟨rfl, rfl⟩
  · intro hs
    rw [UndoManager.redo_of_empty m board hs]
    exact ⟨rfl, rfl⟩
  · intro call hcall
    rw [List.mem_append] at hcall
    rcases hcall with hc | hc
    · by_cases h2 : 2 ≤ m.history.length
      · obtain ⟨pre, p, c, hh⟩ := exists_concat_of_two_le m.history h2
        rw [UndoManager.undo_of_concat m board pre p c hh] at hc
        simp only [List.mem_singleton] at hc
        rw [hc]
      · rw [UndoManager.undo_of_short m board (by omega)] at hc
        simp at hc
    · by_cases h2 : m.future = []
      · rw [UndoManager.redo_of_empty m board h2] at hc
        simp at hc
      · obtain ⟨pre, c, hf⟩ := exists_concat_of_ne_nil m.future h2
        rw [UndoManager.redo_of_concat m board pre c hf] at hc
        simp only [List.mem_singleton] at hc
        rw [hc]
  · intro pre p c hh
    rw [UndoManager.undo_of_concat m board pre p c hh]
    refine ⟨rfl, rfl, ?_⟩
    intro e he
    simp only [he]
    rfl
  · intro pre c hf
    rw [UndoManager.redo_of_concat m board pre c hf]
    refine ⟨rfl, rfl, ?_⟩
    intro e he
    simp only [he]
    rfl

/-- C7 amended, at the manager holding A, B with an `importData` that
throws: the exception leaves `undo` and the flag is false afterwards. -/
theorem undoManager_guard_release_witness :
    ((UndoManager.mk 100 ["A", "B"] [] false).undo (throwingBoard "boom")).state.isRestoring =
        false ∧
      ((UndoManager.mk 100 ["A", "B"] [] false).undo (throwingBoard "boom")).result =
        .error "boom" ∧
      ((UndoManager.mk 100 ["A"] ["B"] false).redo (throwingBoard "boom")).state.isRestoring =
        false :=
  ⟨(undoManager_guard_release (UndoManager.mk 100 ["A", "B"] [] false)
      (throwingBoard "boom")).1 (Or.inl rfl),
    ((undoManager_guard_release (UndoManager.mk 100 ["A", "B"] [] false)
      (throwingBoard "boom")).2.2.2.2.2.1 [] "A" "B" rfl).2.2 "boom" rfl,
    (undoManager_guard_release (UndoManager.mk 100 ["A"] ["B"] false)
      (throwingBoard "boom")).2.1 (Or.inl rfl)⟩
/-! ## Release of the restoring flag by `FileManager` (C8) -/

/-- C8 at the input where the code departs from it. The history manager
holds A, B with the cursor on B, so it can undo; `fileReader.importData`
throws. `FileManager.undo()` sets `isRestoring`, the exception leaves the
method, and the flag is still true at exit (the clearing statement after the
call is skipped). The same happens in `redo()` with the cursor on A. A later
`saveState()` then records nothing although the document, now C, differs
from the current entry. -/
theorem fileManager_flag_stuck_after_throw :
    (HistoryManager.mk ["A", "B"] 1 50 false).canUndo = true ∧
      (FileManager.undo
        { historyManager := HistoryManager.mk ["A", "B"] 1 50 false,
          fileReader := throwingReader "boom",
          fileWriter := quietWriter "C" }).result = .error "boom" ∧
      (FileManager.undo
        { historyManager := HistoryManager.mk ["A", "B"] 1 50 false,
          fileReader := throwingReader "boom",
          fileWriter := quietWriter "C" }).state =
        HistoryManager.mk ["A", "B"] 0 50 true ∧
      (HistoryManager.mk ["A", "B"] 0 50 false).canRedo = true ∧
      (FileManager.redo
        { historyManager := HistoryManager.mk ["A", "B"] 0 50 false,
          fileReader := throwingReader "boom",
          fileWriter := quietWriter "C" }).state =
        HistoryManager.mk ["A", "B"] 1 50 true ∧
      (FileManager.saveState
        { historyManager := HistoryManager.mk ["A", "B"] 0 50 true,
          fileReader := throwingReader "boom",
          fileWriter := quietWriter "C" }).state =
        HistoryManager.mk ["A", "B"] 0 50 true :=
  ⟨by decide, rfl, by decide, by decide, by decide, by decide⟩

/-! ## Capture while restoring, `UndoManager` (C9) -/

/-- C9. For every `UndoManager` with `isRestoring` true and every snapshot
`s`, `pushSnapshot(s)` leaves `history`, `future` and `isRestoring` (the
whole manager) unchanged. Consequently, for every manager `k` and every
`importData` that synchronously calls `pushSnapshot` on it any number of
times with any snapshots, `undo(board)` and `redo(board)` end with the same
history and future (and the same result) as with an `importData` that does
nothing. -/
theorem pushSnapshot_ignored_while_restoring (m k : UndoManager) (s : String)
    (f : String → Bool → UndoManager → List String) (hm : m.isRestoring = true) :
    ((m.pushSnapshot s).history = m.history ∧ (m.pushSnapshot s).future = m.future ∧
        (m.pushSnapshot s).isRestoring = m.isRestoring ∧ m.pushSnapshot s = m) ∧
      ((k.undo (pushingBoard f)).state.history = (k.undo quietBoard).state.history ∧
        (k.undo (pushingBoard f)).state.future = (k.undo quietBoard).state.future ∧
        (k.undo (pushingBoard f)).result = (k.undo quietBoard).result) ∧
      ((k.redo (pushingBoard f)).state.history = (k.redo quietBoard).state.history ∧
        (k.redo (pushingBoard f)).state.future = (k.redo quietBoard).state.future ∧
        (k.redo (pushingBoard f)).result = (k.redo quietBoard).result) := by
  have hpush := UndoManager.pushSnapshot_of_restoring m s hm
  refine ⟨⟨by rw [hpush], by rw [hpush], by rw [hpush], hpush⟩, ?_, ?_⟩
  · by_cases h2 : 2 ≤ k.history.length
    · obtain ⟨pre, p, c, hh⟩ := exists_concat_of_two_le k.history h2
      rw [UndoManager.undo_of_concat k _ pre p c hh,
        UndoManager.undo_of_concat k _ pre p c hh]
      simp only [pushingBoard, quietBoard]
      rw [pushAll_of_restoring _ _ rfl]
      simp
    · rw [UndoManager.undo_of_short k _ (by omega), UndoManager.undo_of_short k _ (by omega)]
      exact ⟨rfl, rfl, rfl⟩
  · by_cases h2 : k.future = []
    · rw [UndoManager.redo_of_empty k _ h2, UndoManager.redo_of_empty k _ h2]
      exact ⟨rfl, rfl, rfl⟩
    · obtain ⟨pre, c, hf⟩ := exists_concat_of_ne_nil k.future h2
      rw [UndoManager.redo_of_concat k _ pre c hf, UndoManager.redo_of_concat k _ pre c hf]
      simp only [pushingBoard, quietBoard]
      rw [pushAll_of_restoring _ _ rfl]
      simp

/-- C9 at a manager that is restoring (a push of C is ignored) and at the
manager holding A, B whose `importData` pushes X and then the snapshot it was
given followed by Y: `undo` ends with history A and future B. -/
theorem pushSnapshot_ignored_while_restoring_witness :
    (UndoManager.mk 100 ["A"] ["B"] true).isRestoring = true ∧
      (UndoManager.mk 100 ["A"] ["B"] true).pushSnapshot "C" =
        UndoManager.mk 100 ["A"] ["B"] true ∧
      ((UndoManager.mk 100 ["A", "B"] [] false).undo
          (pushingBoard (fun d _ _ => ["X", d ++ "Y"]))).state.history =
        ((UndoManager.mk 100 ["A", "B"] [] false).undo quietBoard).state.history ∧
      ((UndoManager.mk 100 ["A", "B"] [] false).undo quietBoard).state.history = ["A"] :=
  ⟨rfl,
    (pushSnapshot_ignored_while_restoring (UndoManager.mk 100 ["A"] ["B"] true)
      (UndoManager.mk 100 ["A", "B"] [] false) "C" (fun d _ _ => ["X", d ++ "Y"]) rfl).1.2.2.2,
    (pushSnapshot_ignored_while_restoring (UndoManager.mk 100 ["A"] ["B"] true)
      (UndoManager.mk 100 ["A", "B"] [] false) "C" (fun d _ _ => ["X", d ++ "Y"]) rfl).2.1.1,
    by decide⟩

/-! ## Capture while restoring, `HistoryManager` (C10) -/

/-- C10, refuted as stated: on a `HistoryManager` holding A with
`isRestoring` true, `push("B")` records B; `push` never reads the flag. -/
theorem historyManager_push_while_restoring_counterexample :
    (HistoryManager.mk ["A"] 0 50 true).isRestoring = true ∧
      (HistoryManager.mk ["A"] 0 50 true).push "B" = HistoryManager.mk ["A", "B"] 1 50 true ∧
      ((HistoryManager.mk ["A"] 0 50 true).push "B").states ≠
        (HistoryManager.mk ["A"] 0 50 true).states ∧
      ((HistoryManager.mk ["A"] 0 50 true).push "B").currentIndex ≠
        (HistoryManager.mk ["A"] 0 50 true).currentIndex :=
  ⟨rfl, by decide, by decide, by decide⟩

/-- C10, amended. `HistoryManager.push` never reads `isRestoring`: for every
manager `h`, every snapshot `s` and every value of the flag, `push(s)` gives
the same `states`, `currentIndex` and `maxStates` as with any other value of
the flag, and leaves the flag as it is; so with the flag true and the cursor
on an entry it records `s` as the last and current entry, like any other
push. The flag is tested by the caller: for every `FileManager` whose
`historyManager.isRestoring` is true, `saveState()` does not call `push`;
the history manager reaches `fileWriter.saveState()` as it was, so its
`states` and `currentIndex` are unchanged by the capture (and by the whole
call when the writer leaves the manager alone). With the flag false,
`saveState()` does push the serialised document. -/
theorem fileManager_saveState_while_restoring {ε : Type} (fm : FileManager ε)
    (h : HistoryManager) (s : String) (hr : fm.historyManager.isRestoring = true) :
    ((∀ b : Bool,
          HistoryManager.push { h with isRestoring := b } s =
            { h.push s with isRestoring := b }) ∧
        (h.push s).isRestoring = h.isRestoring ∧
        (h.isRestoring = true → h.CursorOk → 0 ≤ h.currentIndex →
          (h.push s).states.getLast? = some s ∧
          arrayAt (h.push s).states (h.push s).currentIndex = JsValue.str s ∧
          (h.push s).currentIndex = ((h.push s).states.length : Int) - 1)) ∧
      fm.saveState.state = (fm.fileWriter.saveState fm.historyManager).2 ∧
      fm.saveState.result = (fm.fileWriter.saveState fm.historyManager).1 ∧
      ((∀ k, (fm.fileWriter.saveState k).2 = k) →
        fm.saveState.state.states = fm.historyManager.states ∧
        fm.saveState.state.currentIndex = fm.historyManager.currentIndex) ∧
      (∀ g : FileManager ε, g.historyManager.isRestoring = false →
        g.saveState.state =
          (g.fileWriter.saveState (g.historyManager.push g.fileWriter.serializeState)).2) := by
  refine ⟨⟨HistoryManager.push_flag_irrelevant h s, HistoryManager.push_isRestoring h s, ?_⟩,
    ?_, ?_, ?_, ?_⟩
  · intro _ hw h0
    obtain ⟨r1, r2⟩ := HistoryManager.push_records h s hw h0
    exact ⟨r1, r2, HistoryManager.push_length h hw s⟩
  · simp [FileManager.saveState, hr]
  · simp [FileManager.saveState, hr]
  · intro hw
    simp [FileManager.saveState, hr, hw]
  · intro g hg
    simp [FileManager.saveState, hg]

/-- C10 amended, at a file manager whose history manager holds A and is
restoring while the document serialises to B (`saveState()` records
nothing), and at the restoring manager holding A, B with the cursor on B,
where `push("C")` records C exactly as it does with the flag false. -/
theorem fileManager_saveState_while_restoring_witness :
    (HistoryManager.mk ["A"] 0 50 true).isRestoring = true ∧
      (FileManager.saveState
        { historyManager := HistoryManager.mk ["A"] 0 50 true,
          fileReader := quietReader,
          fileWriter := quietWriter "B" }).state.states = ["A"] ∧
      (FileManager.saveState
        { historyManager := HistoryManager.mk ["A"] 0 50 true,
          fileReader := quietReader,
          fileWriter := quietWriter "B" }).state.currentIndex = 0 ∧
      (HistoryManager.mk ["A", "B"] 1 50 true).push "C" =
        { (HistoryManager.mk ["A", "B"] 1 50 false).push "C" with isRestoring := true } ∧
      ((HistoryManager.mk ["A", "B"] 1 50 true).push "C").states.getLast? = some "C" ∧
      ((HistoryManager.mk ["A", "B"] 1 50 true).push "C").states = ["A", "B", "C"] :=
  ⟨rfl,
    ((fileManager_saveState_while_restoring
      { historyManager := HistoryManager.mk ["A"] 0 50 true,
        fileReader := quietReader,
        fileWriter := quietWriter "B" } (HistoryManager.mk ["A", "B"] 1 50 true) "C"
      rfl).2.2.2.1 (fun _ => rfl)).1,
    ((fileManager_saveState_while_restoring
      { historyManager := HistoryManager.mk ["A"] 0 50 true,
        fileReader := quietReader,
        fileWriter := quietWriter "B" } (HistoryManager.mk ["A", "B"] 1 50 true) "C"
      rfl).2.2.2.1 (fun _ => rfl)).2,
    (fileManager_saveState_while_restoring
      { historyManager := HistoryManager.mk ["A"] 0 50 true,
        fileReader := quietReader,
        fileWriter := quietWriter "B" } (HistoryManager.mk ["A", "B"] 1 50 false) "C"
      rfl).1.1 true,
    ((fileManager_saveState_while_restoring
      { historyManager := HistoryManager.mk ["A"] 0 50 true,
        fileReader := quietReader,
        fileWriter := quietWriter "B" } (HistoryManager.mk ["A", "B"] 1 50 true) "C"
      rfl).1.2.2 rfl ⟨by decide, by decide⟩ (by decide)).1,
    by decide⟩

/-! ## The undo/redo scenario (C11) -/

/-- C11. On a new `HistoryManager` (capacity 50), after `initialize("A")`,
`push("B")`, `push("C")`: `undo()` returns B, `undo()` returns A, `undo()`
returns `null`, `redo()` returns B, and after `push("D")` `redo()` returns
`null`; the final timeline is A, B, D with the cursor (index 2) on D. -/
theorem historyManager_scenario :
    historyScenario =
        ([JsValue.str "B", JsValue.str "A", JsValue.null, JsValue.str "B", JsValue.null],
          HistoryManager.mk ["A", "B", "D"] 2 50 false) ∧
      arrayAt historyScenario.2.states historyScenario.2.currentIndex = JsValue.str "D" := by
  decide

/-! ## Eviction and the cursor (C12) -/

/-- C12. For every capacity `c ≥ 1`, every `HistoryManager` with
`maxStates = c`, `1 ≤ states.length ≤ c` and `0 ≤ currentIndex <
states.length`, and every snapshot `s`: after `push(s)` the current entry is
`s` and it is the last entry; if the timeline up to the cursor already held
`c` entries, exactly the oldest entry is removed and the others keep their
order (`states` is the old `states` without its first entry, followed by
`s`, the cursor unchanged); otherwise the entries up to the cursor are all
kept, followed by `s`. With capacity 2, `initialize("A"); push("B");
push("C")` gives the states B, C, then `undo()` returns B and a second
`undo()` returns `null`. -/
theorem historyManager_eviction (c : Nat) (h : HistoryManager) (s : String) (_hc : 1 ≤ c)
    (hmax : h.maxStates = c) (hl1 : 1 ≤ h.states.length) (hl2 : h.states.length ≤ c)
    (h0 : 0 ≤ h.currentIndex) (h1 : h.currentIndex < (h.states.length : Int)) :
    (arrayAt (h.push s).states (h.push s).currentIndex = JsValue.str s ∧
        (h.push s).currentIndex = ((h.push s).states.length : Int) - 1 ∧
        (h.push s).states.getLast? = some s) ∧
      (h.currentIndex + 1 = (c : Int) →
        (h.push s).states = h.states.tail ++ [s] ∧
        (h.push s).currentIndex = h.currentIndex) ∧
      (h.currentIndex + 1 < (c : Int) →
        (h.push s).states = h.states.take (h.currentIndex + 1).toNat ++ [s] ∧
        (h.push s).currentIndex = h.currentIndex + 1) ∧
      evictionScenario = (["B", "C"], JsValue.str "B", JsValue.null) := by
  have hw : h.CursorOk := ⟨by omega, by omega⟩
  have hend := HistoryManager.push_length h hw s
  obtain ⟨ys, hys⟩ := HistoryManager.push_states_concat h hw h0 s
  have hlast : (h.push s).states.getLast? = some s := by rw [hys]; simp
  have hcur : arrayAt (h.push s).states (h.push s).currentIndex = JsValue.str s := by
    have hlen : ((h.push s).states.length : Int) = (ys.length : Int) + 1 := by
      rw [hys]; simp
    obtain ⟨hlt, hval⟩ := arrayAt_of_inBounds (h.push s).states (h.push s).currentIndex
      (by omega) (by omega)
    rw [hval]
    congr 1
    have hidx : (h.push s).currentIndex.toNat = ys.length := by omega
    simp only [hys, hidx, List.get_eq_getElem]
    simp
  have htake : (h.states.take (h.currentIndex + 1).toNat).length =
      (h.currentIndex + 1).toNat := by
    rw [List.length_take]
    omega
  refine ⟨⟨hcur, hend, hlast⟩, ?_, ?_, by decide⟩
  · intro hfull
    have hall : h.states.take (h.currentIndex + 1).toNat = h.states :=
      List.take_of_length_le (by omega)
    have hgt : (h.states ++ [s]).length > h.maxStates := by
      simp only [List.length_append, List.length_singleton]
      omega
    have hcond : ¬ (h.currentIndex < (h.states.length : Int) - 1) := by omega
    constructor
    · rw [HistoryManager.push_states_eq h hw s, hall, if_pos hgt]
      cases hst : h.states with
      | nil => rw [hst] at hl1; simp at hl1
      | cons x xs => simp
    · simp only [HistoryManager.push, hcond, if_false, hgt, if_true]
  · intro hroom
    have hng : ¬ ((h.states.take (h.currentIndex + 1).toNat ++ [s]).length > h.maxStates) := by
      simp only [List.length_append, List.length_singleton, htake]
      omega
    constructor
    · rw [HistoryManager.push_states_eq h hw s, if_neg hng]
    · by_cases hcond : h.currentIndex < (h.states.length : Int) - 1
      · have hneg : ¬ (h.currentIndex + 1 < 0) := by omega
        have hng2 : ¬ ((sliceTo h.states (h.currentIndex + 1) ++ [s]).length >
            h.maxStates) := by
          simpa only [sliceTo, hneg, if_false] using hng
        simp only [HistoryManager.push, hcond, if_true, hng2, if_false]
      · have hall : h.states.take (h.currentIndex + 1).toNat = h.states :=
          List.take_of_length_le (by omega)
        rw [hall] at hng
        simp only [HistoryManager.push, hcond, if_false, hng]

/-- C12 at capacity 2 with the full timeline A, B (cursor on B) and the
snapshot C: A is evicted. -/
theorem historyManager_eviction_witness :
    (1 ≤ 2) ∧
      ((HistoryManager.mk ["A", "B"] 1 2 false).push "C").states =
        (HistoryManager.mk ["A", "B"] 1 2 false).states.tail ++ ["C"] ∧
      ((HistoryManager.mk ["A", "B"] 1 2 false).push "C").currentIndex = 1 :=
  ⟨by decide,
    (historyManager_eviction 2 (HistoryManager.mk ["A", "B"] 1 2 false) "C" (by decide) rfl
      (by decide) (by decide) (by decide) (by decide)).2.1 (by decide)⟩

/-! ## The timeline invariant (C13) -/

/-- C13. For every capacity `c ≥ 1`, every manager `h0` with `maxStates = c`,
every initial snapshot `s0` and every finite list of calls made after
`initialize(s0)`, the manager satisfies `1 ≤ states.length ≤ c` and
`0 ≤ currentIndex < states.length` (and `maxStates` is still `c`). -/
theorem historyManager_timeline_invariant (c : Nat) (h0 : HistoryManager) (s0 : String)
    (ops : List HistoryOp) (hc : 1 ≤ c) (hmax : h0.maxStates = c) :
    1 ≤ ((h0.initialise s0).run ops).states.length ∧
      ((h0.initialise s0).run ops).states.length ≤ c ∧
      0 ≤ ((h0.initialise s0).run ops).currentIndex ∧
      ((h0.initialise s0).run ops).currentIndex <
        (((h0.initialise s0).run ops).states.length : Int) ∧
      ((h0.initialise s0).run ops).maxStates = c := by
  have key : ∀ (ops : List HistoryOp) (h : HistoryManager),
      h.CursorOk → 0 ≤ h.currentIndex → h.states.length ≤ c → h.maxStates = c →
      (h.run ops).CursorOk ∧ 0 ≤ (h.run ops).currentIndex ∧
        (h.run ops).states.length ≤ c ∧ (h.run ops).maxStates = c := by
    intro ops
    induction ops with
    | nil => intro h hw hn hl hm; exact ⟨hw, hn, hl, hm⟩
    | cons op rest ih =>
      intro h hw hn hl hm
      have hstep : (h.step op).states.length ≤ c := by
        have := HistoryManager.step_states_length h op hw (by omega) (by omega)
        omega
      exact ih (h.step op) (HistoryManager.cursorOk_step h op hw)
        (HistoryManager.nonneg_step h op hn) hstep
        (by rw [HistoryManager.step_maxStates, hm])
  obtain ⟨⟨_, hw2⟩, hn, hl, hm⟩ := key ops (h0.initialise s0)
    (by simp [HistoryManager.CursorOk, HistoryManager.initialise])
    (by simp [HistoryManager.initialise])
    (by simpa [HistoryManager.initialise] using hc)
    (by simpa [HistoryManager.initialise] using hmax)
  refine ⟨?_, hl, hn, ?_, hm⟩ <;> omega

/-- C13 at capacity 2 with the calls push B, push C, undo, push D, redo after
`initialize("A")`. -/
theorem historyManager_timeline_invariant_witness :
    (1 ≤ 2) ∧
      1 ≤ (((HistoryManager.withCapacity 2).initialise "A").run
        [.push "B", .push "C", .undo, .push "D", .redo]).states.length ∧
      (((HistoryManager.withCapacity 2).initialise "A").run
        [.push "B", .push "C", .undo, .push "D", .redo]).states.length ≤ 2 :=
  ⟨by decide,
    (historyManager_timeline_invariant 2 (HistoryManager.withCapacity 2) "A"
      [.push "B", .push "C", .undo, .push "D", .redo] (by decide) rfl).1,
    (historyManager_timeline_invariant 2 (HistoryManager.withCapacity 2) "A"
      [.push "B", .push "C", .undo, .push "D", .redo] (by decide) rfl).2.1⟩
/-! ## `undo` steps back one entry (C16) -/

/-- C16. If `history` has fewer than two entries, `undo(board)` returns false,
does not call `importData` and leaves the manager as it is. Otherwise, with
`history = pre ++ [p, c]`, `undo(board)` calls `importData` exactly once,
with `(p, false)`; and when `importData` returns normally without touching
the manager, `undo` returns true with `history = pre ++ [p]` and `future`
the old future followed by `c`, and the next `redo(board)` hands `c` to
`importData` and puts it back on the history. -/
theorem undoManager_undo_one_step {ε : Type} (m : UndoManager) (board : Board ε) :
    (m.history.length < 2 →
        m.undo board = { result := .ok false, state := m, imports := [] }) ∧
      (∀ pre p c, m.history = pre ++ [p, c] →
        ((m.undo board).imports.map (fun call => (call.data, call.shouldSave)) = [(p, false)]) ∧
        ((∀ d b k, board.importData d b k = (.ok (), k)) →
          (m.undo board).result = .ok true ∧
          (m.undo board).state.history = pre ++ [p] ∧
          (m.undo board).state.future = m.future ++ [c] ∧
          (m.undo board).state.isRestoring = false ∧
          ((m.undo board).state.redo board).imports.map
              (fun call => (call.data, call.shouldSave)) = [(c, false)] ∧
          ((m.undo board).state.redo board).state.history = pre ++ [p, c])) := by
  refine ⟨UndoManager.undo_of_short m board, ?_⟩
  intro pre p c hh
  rw [UndoManager.undo_of_concat m board pre p c hh]
  refine ⟨rfl, ?_⟩
  intro hquiet
  simp only [hquiet]
  rw [UndoManager.redo_of_concat _ board m.future c rfl]
  simp only [hquiet]
  simp [Except.map]

/-- C16 at the lone history A (nothing to undo) and at the history A, B, C
with an import routine that does nothing. -/
theorem undoManager_undo_one_step_witness :
    (UndoManager.mk 100 ["A"] [] false).undo quietBoard =
        { result := .ok false, state := UndoManager.mk 100 ["A"] [] false, imports := [] } ∧
      ((UndoManager.mk 100 ["A", "B", "C"] [] false).undo quietBoard).state.history =
        ["A"] ++ ["B"] ∧
      ((UndoManager.mk 100 ["A", "B", "C"] [] false).undo quietBoard).state.future =
        [] ++ ["C"] :=
  ⟨(undoManager_undo_one_step (UndoManager.mk 100 ["A"] [] false) quietBoard).1 (by decide),
    (((undoManager_undo_one_step (UndoManager.mk 100 ["A", "B", "C"] [] false) quietBoard).2
      ["A"] "B" "C" rfl).2 (fun _ _ _ => rfl)).2.1,
    (((undoManager_undo_one_step (UndoManager.mk 100 ["A", "B", "C"] [] false) quietBoard).2
      ["A"] "B" "C" rfl).2 (fun _ _ _ => rfl)).2.2.1⟩

/-! ## `initialize` (C17) -/

/-- C17. For every `HistoryManager` (any states, any cursor) and every
snapshot `s`, after `initialize(s)` the states are exactly `[s]`, the cursor
is 0, `canUndo()` and `canRedo()` are false, `maxStates` and `isRestoring` are
unchanged; calling `initialize(s)` twice gives the same manager as calling it
once. -/
theorem historyManager_initialise_resets (h : HistoryManager) (s : String) :
    (h.initialise s).states = [s] ∧ (h.initialise s).currentIndex = 0 ∧
      (h.initialise s).canUndo = false ∧ (h.initialise s).canRedo = false ∧
      (h.initialise s).maxStates = h.maxStates ∧
      (h.initialise s).isRestoring = h.isRestoring ∧
      (h.initialise s).initialise s = h.initialise s :=
  ⟨rfl, rfl, by simp [HistoryManager.canUndo, HistoryManager.initialise],
    by simp [HistoryManager.canRedo, HistoryManager.initialise], rfl, rfl, rfl⟩
/-! ## The capacity bound of `UndoManager` (C19) -/

/-- C19. For every capacity `c ≥ 0`, every `importData` that returns normally
without touching the manager, and every finite list of `pushSnapshot` /
`undo` / `redo` / `clear` calls on a freshly constructed `UndoManager(c)`,
the manager satisfies `history.length + future.length ≤ c`, hence
`history.length ≤ c`, although `redo` appends to `history` without a
capacity test. -/
theorem undoManager_capacity_bound {ε : Type} (c : Nat) (board : Board ε) (ops : List UndoOp)
    (hquiet : ∀ d b k, board.importData d b k = (.ok (), k)) :
    ((UndoManager.constructor c).run board ops).history.length +
        ((UndoManager.constructor c).run board ops).future.length ≤ c ∧
      ((UndoManager.constructor c).run board ops).history.length ≤ c := by
  have key : ∀ (ops : List UndoOp) (m : UndoManager), m.maxHistory = c →
      m.history.length + m.future.length ≤ c →
      (m.run board ops).history.length + (m.run board ops).future.length ≤ c := by
    intro ops
    induction ops with
    | nil => intro m _ hb; exact hb
    | cons op rest ih =>
      intro m hm hb
      obtain ⟨h1, h2⟩ := UndoManager.step_bound board m op hquiet (by omega)
      exact ih (m.step board op) (by rw [h1, hm]) (by omega)
  have hsum := key ops (UndoManager.constructor c) rfl (by simp [UndoManager.constructor])
  exact ⟨hsum, by omega⟩

/-- C19 at capacity 2 with pushes of A, B, C, two undo calls and two redo
calls: the history never exceeds two entries. -/
theorem undoManager_capacity_bound_witness :
    ((UndoManager.constructor 2).run quietBoard
        [.push "A", .push "B", .push "C", .undo, .undo, .redo, .redo]).history.length +
      ((UndoManager.constructor 2).run quietBoard
        [.push "A", .push "B", .push "C", .undo, .undo, .redo, .redo]).future.length ≤ 2 ∧
      ((UndoManager.constructor 2).run quietBoard
        [.push "A", .push "B", .push "C", .undo, .undo, .redo, .redo]).history = ["B", "C"] :=
  ⟨(undoManager_capacity_bound 2 quietBoard
      [.push "A", .push "B", .push "C", .undo, .undo, .redo, .redo] (fun _ _ _ => rfl)).1,
    by decide⟩
/-! ## The order of redo (C15) -/

/-- C15. For every `UndoManager` with `future` empty, every `k` with
`1 ≤ k ≤ history.length - 1` and every `importData` that returns normally
without touching the manager: `k` consecutive `undo(board)` calls all return
true and leave in `future` exactly the `k` undone snapshots, oldest-undone
first (the reverse of the last `k` entries of the original history), with
`history` the original one without its last `k` entries; `k` consecutive
`redo(board)` calls then all return true, hand the snapshots to `importData`
in the reverse order of undoing, and restore `history` to the original
history and `future` to empty. -/
theorem undoManager_redo_order {ε : Type} (m : UndoManager) (board : Board ε) (k : Nat)
    (hf : m.future = []) (hk1 : 1 ≤ k) (hk2 : k + 1 ≤ m.history.length)
    (hquiet : ∀ d b x, board.importData d b x = (.ok (), x)) :
    ((repeatCall (fun x => x.undo board) k m).result = .ok (List.replicate k true) ∧
        (repeatCall (fun x => x.undo board) k m).state.future =
          (lastEntries k m.history).reverse ∧
        (repeatCall (fun x => x.undo board) k m).state.history =
          m.history.take (m.history.length - k)) ∧
      ((repeatCall (fun x => x.redo board) k
            (repeatCall (fun x => x.undo board) k m).state).result =
          .ok (List.replicate k true) ∧
        (repeatCall (fun x => x.redo board) k
            (repeatCall (fun x => x.undo board) k m).state).imports.map ImportCall.data =
          (repeatCall (fun x => x.undo board) k m).state.future.reverse ∧
        (repeatCall (fun x => x.redo board) k
            (repeatCall (fun x => x.undo board) k m).state).state.history = m.history ∧
        (repeatCall (fun x => x.redo board) k
            (repeatCall (fun x => x.undo board) k m).state).state.future = []) := by
  obtain ⟨u1, u2, u3⟩ := repeatCall_undo board hquiet k m hk2
  rw [hf, List.nil_append] at u3
  have hglen : ((m.history.drop (m.history.length - k)).reverse).length = k := by
    rw [List.length_reverse, List.length_drop]
    omega
  have hfut : (repeatCall (fun x => x.undo board) k m).state.future =
      [] ++ (m.history.drop (m.history.length - k)).reverse := by
    rw [u3]; simp
  obtain ⟨r1, r2, r3, r4⟩ := repeatCall_redo board hquiet
    ((m.history.drop (m.history.length - k)).reverse) []
    (repeatCall (fun x => x.undo board) k m).state hfut
  rw [hglen] at r1 r2 r3 r4
  refine ⟨⟨u1, ?_, u2⟩, r1, ?_, ?_, r3⟩
  · rw [u3]; rfl
  · rw [r4, u3]
  · rw [r2, u2, List.reverse_reverse, List.take_append_drop]

/-- C15 at the history A, B, C, D with `k = 2` and an import routine that
does nothing: two undo calls leave the future D, C, and two redo calls hand
C then D to `importData`. -/
theorem undoManager_redo_order_witness :
    (repeatCall (fun x => x.undo quietBoard) 2
        (UndoManager.mk 100 ["A", "B", "C", "D"] [] false)).state.future = ["D", "C"] ∧
      (repeatCall (fun x => x.redo quietBoard) 2
        (repeatCall (fun x => x.undo quietBoard) 2
          (UndoManager.mk 100 ["A", "B", "C", "D"] [] false)).state).imports.map
          ImportCall.data = ["C", "D"] ∧
      (repeatCall (fun x => x.redo quietBoard) 2
        (repeatCall (fun x => x.undo quietBoard) 2
          (UndoManager.mk 100 ["A", "B", "C", "D"] [] false)).state).state.history =
        (UndoManager.mk 100 ["A", "B", "C", "D"] [] false).history :=
  ⟨by decide, by decide,
    (undoManager_redo_order (UndoManager.mk 100 ["A", "B", "C", "D"] [] false) quietBoard 2
      rfl (by decide) (by decide) (fun _ _ _ => rfl)).2.2.2.1⟩
/-! ## `FileManager.undo` / `redo` apply the restored snapshot (C18) -/

/-- C18, refuted as stated for "all string values": the history manager
holds the empty string and B with the cursor on B, so `canUndo()` is true;
`FileManager.undo()` moves the cursor to the empty snapshot and returns
without calling `importData`, because `if (!stateStr) return` treats the
empty string like `null`. The same happens in `redo()` towards an empty
snapshot. -/
theorem fileManager_undo_empty_snapshot_counterexample :
    (HistoryManager.mk ["", "B"] 1 50 false).canUndo = true ∧
      (FileManager.undo
        { historyManager := HistoryManager.mk ["", "B"] 1 50 false,
          fileReader := quietReader,
          fileWriter := quietWriter "B" }).imports = [] ∧
      (FileManager.undo
        { historyManager := HistoryManager.mk ["", "B"] 1 50 false,
          fileReader := quietReader,
          fileWriter := quietWriter "B" }).state = HistoryManager.mk ["", "B"] 0 50 false ∧
      (HistoryManager.mk ["A", ""] 0 50 false).canRedo = true ∧
      (FileManager.redo
        { historyManager := HistoryManager.mk ["A", ""] 0 50 false,
          fileReader := quietReader,
          fileWriter := quietWriter "A" }).imports = [] ∧
      (FileManager.redo
        { historyManager := HistoryManager.mk ["A", ""] 0 50 false,
          fileReader := quietReader,
          fileWriter := quietWriter "A" }).state = HistoryManager.mk ["A", ""] 1 50 false :=
  ⟨by decide, by decide, by decide, by decide, by decide, by decide⟩

/-- C18, amended. For every `FileManager` (and every behaviour of
`importData`): when `canUndo()` holds and the entry the cursor moves to is a
non-empty string `s`, `undo()` calls `importData` exactly once, with
`(s, false)`, and `isRestoring` is true when the call is entered; when that
entry is the empty string, the cursor moves and `importData` is not called;
when `canUndo()` is false, `undo()` neither calls `importData` nor changes
the history manager. When the cursor points at an existing entry (as in
every reachable state) and `canUndo()` holds, the entry the cursor moves to
is an element of `states`. The same four statements hold for `redo()` with
`canRedo()`. -/
theorem fileManager_undo_redo_apply {ε : Type} (fm : FileManager ε) :
    ((fm.historyManager.canUndo = true →
          ∀ s, arrayAt fm.historyManager.states (fm.historyManager.currentIndex - 1) =
              JsValue.str s → s ≠ "" →
            fm.undo.imports = [{ data := s, shouldSave := false, restoring := true }]) ∧
        (fm.historyManager.canUndo = true →
          arrayAt fm.historyManager.states (fm.historyManager.currentIndex - 1) =
              JsValue.str "" →
            fm.undo.imports = [] ∧
            fm.undo.state =
              { fm.historyManager with currentIndex := fm.historyManager.currentIndex - 1 }) ∧
        (fm.historyManager.canUndo = false →
          fm.undo.imports = [] ∧ fm.undo.state = fm.historyManager) ∧
        (fm.historyManager.CursorOk → fm.historyManager.canUndo = true →
          ∃ s, s ∈ fm.historyManager.states ∧
            arrayAt fm.historyManager.states (fm.historyManager.currentIndex - 1) =
              JsValue.str s)) ∧
      ((fm.historyManager.canRedo = true →
          ∀ s, arrayAt fm.historyManager.states (fm.historyManager.currentIndex + 1) =
              JsValue.str s → s ≠ "" →
            fm.redo.imports = [{ data := s, shouldSave := false, restoring := true }]) ∧
        (fm.historyManager.canRedo = true →
          arrayAt fm.historyManager.states (fm.historyManager.currentIndex + 1) =
              JsValue.str "" →
            fm.redo.imports = [] ∧
            fm.redo.state =
              { fm.historyManager with currentIndex := fm.historyManager.currentIndex + 1 }) ∧
        (fm.historyManager.canRedo = false →
          fm.redo.imports = [] ∧ fm.redo.state = fm.historyManager) ∧
        (fm.historyManager.CursorOk → fm.historyManager.canRedo = true →
          ∃ s, s ∈ fm.historyManager.states ∧
            arrayAt fm.historyManager.states (fm.historyManager.currentIndex + 1) =
              JsValue.str s)) := by
  constructor
  · refine ⟨?_, ?_, ?_, ?_⟩
    · intro hc s hs hne
      apply FileManager.undo_imports_of_str fm s _ hne
      rw [HistoryManager.undo_of_canUndo _ hc]
      exact hs
    · intro hc hs
      have hu := HistoryManager.undo_of_canUndo _ hc
      rw [FileManager.undo_of_falsy fm (by rw [hu]; simp only [hs]; rfl), hu]
      exact ⟨rfl, rfl⟩
    · intro hc
      have hu := HistoryManager.undo_of_not_canUndo _ hc
      rw [FileManager.undo_of_falsy fm (by rw [hu]; rfl), hu]
      exact ⟨rfl, rfl⟩
    · intro hw hc
      have hpos : fm.historyManager.currentIndex > 0 := by
        simpa [HistoryManager.canUndo] using hc
      obtain ⟨_, hw2⟩ := hw
      obtain ⟨hlt, hval⟩ := arrayAt_of_inBounds fm.historyManager.states
        (fm.historyManager.currentIndex - 1) (by omega) (by omega)
      exact ⟨_, List.get_mem _ _ _, hval⟩
  · refine ⟨?_, ?_, ?_, ?_⟩
    · intro hc s hs hne
      apply FileManager.redo_imports_of_str fm s _ hne
      rw [HistoryManager.redo_of_canRedo _ hc]
      exact hs
    · intro hc hs
      have hu := HistoryManager.redo_of_canRedo _ hc
      rw [FileManager.redo_of_falsy fm (by rw [hu]; simp only [hs]; rfl), hu]
      exact ⟨rfl, rfl⟩
    · intro hc
      have hu := HistoryManager.redo_of_not_canRedo _ hc
      rw [FileManager.redo_of_falsy fm (by rw [hu]; rfl), hu]
      exact ⟨rfl, rfl⟩
    · intro hw hc
      have hpos : fm.historyManager.currentIndex < (fm.historyManager.states.length : Int) - 1 := by
        simpa [HistoryManager.canRedo] using hc
      obtain ⟨hw1, _⟩ := hw
      obtain ⟨hlt, hval⟩ := arrayAt_of_inBounds fm.historyManager.states
        (fm.historyManager.currentIndex + 1) (by omega) (by omega)
      exact ⟨_, List.get_mem _ _ _, hval⟩

/-- C18 amended, at the history manager holding A, B with the cursor on B:
`undo()` hands A to `importData` with `shouldSave` false under a set flag. -/
theorem fileManager_undo_redo_apply_witness :
    (HistoryManager.mk ["A", "B"] 1 50 false).canUndo = true ∧
      (FileManager.undo
        { historyManager := HistoryManager.mk ["A", "B"] 1 50 false,
          fileReader := quietReader,
          fileWriter := quietWriter "B" }).imports =
        [{ data := "A", shouldSave := false, restoring := true }] :=
  ⟨by decide,
    (fileManager_undo_redo_apply
      { historyManager := HistoryManager.mk ["A", "B"] 1 50 false,
        fileReader := quietReader,
        fileWriter := quietWriter "B" }).1.1 (by decide) "A" (by decide) (by decide)⟩
/-! ## Equivalence of the two representations (C14) -/

/-- C14, refuted as stated: with capacity 50 and the initial snapshot A, the
calls `push("A")`, `undo` are observed differently. `HistoryManager` records
the second A, so `canUndo()` is true after the push and `undo()` succeeds,
returning A; `UndoManager` drops the duplicate, so `canUndo()` is false and
`undo(board)` fails. -/
theorem managers_equivalence_counterexample :
    ((HistoryManager.withCapacity 50).initialise "A").trace [.push "A", .undo] =
        [{ succeeded := true, snapshot := none, canUndo := true, canRedo := false },
         { succeeded := true, snapshot := some "A", canUndo := false, canRedo := true }] ∧
      ((UndoManager.constructor 50).pushSnapshot "A").trace quietBoard [.push "A", .undo] =
        [{ succeeded := true, snapshot := none, canUndo := false, canRedo := false },
         { succeeded := false, snapshot := none, canUndo := false, canRedo := false }] ∧
      ((HistoryManager.withCapacity 50).initialise "A").trace [.push "A", .undo] ≠
        ((UndoManager.constructor 50).pushSnapshot "A").trace quietBoard [.push "A", .undo] := by
  decide

/-- C14, amended. For every capacity `c ≥ 1`, every initial snapshot `s0`,
every `importData` that returns normally without touching the manager, and
every finite list of push / undo / redo calls in which no pushed snapshot
equals the snapshot current at the time of the push, the `HistoryManager`
with `maxStates = c` started by `initialize(s0)` and the `UndoManager(c)`
started by `pushSnapshot(s0)` are observed identically: call by call, an
undo/redo succeeds in one iff it succeeds in the other, the snapshot
returned by `HistoryManager` is the one `UndoManager` hands to `importData`,
and `canUndo()` / `canRedo()` agree after the call. -/
theorem managers_equivalent_on_dup_free {ε : Type} (c : Nat) (s0 : String)
    (ops : List EditOp) (board : Board ε) (hc : 1 ≤ c)
    (hquiet : ∀ d b k, board.importData d b k = (.ok (), k))
    (hdup : dupFree ((HistoryManager.withCapacity c).initialise s0) ops = true) :
    ((HistoryManager.withCapacity c).initialise s0).trace ops =
      ((UndoManager.constructor c).pushSnapshot s0).trace board ops :=
  (Simulates.after_calls board hquiet ops _ _ (Simulates.start c hc s0) hdup).2

/-- C14 amended, at capacity 2 with the initial snapshot A and the calls push
B, push C, undo, undo, redo, push D, redo, undo. -/
theorem managers_equivalent_on_dup_free_witness :
    (1 ≤ 2) ∧
      dupFree ((HistoryManager.withCapacity 2).initialise "A")
        [.push "B", .push "C", .undo, .undo, .redo, .push "D", .redo, .undo] = true ∧
      ((HistoryManager.withCapacity 2).initialise "A").trace
          [.push "B", .push "C", .undo, .undo, .redo, .push "D", .redo, .undo] =
        ((UndoManager.constructor 2).pushSnapshot "A").trace quietBoard
          [.push "B", .push "C", .undo, .undo, .redo, .push "D", .redo, .undo] :=
  ⟨by decide, by decide,
    managers_equivalent_on_dup_free 2 "A"
      [.push "B", .push "C", .undo, .undo, .redo, .push "D", .redo, .undo] quietBoard
      (by decide) (fun _ _ _ => rfl) (by decide)⟩

/-! ## Simulation on duplicate-free input (C20) -/

/-- C20. For every capacity `c ≥ 1`, every initial snapshot `s0`, every
`importData` that returns normally without touching the manager, and every
finite list of push / undo / redo calls in which no pushed snapshot equals
the snapshot current at the time of the push: after every number `n` of
these calls the `HistoryManager` (capacity `c`, started by `initialize(s0)`)
and the `UndoManager(c)` (started by `pushSnapshot(s0)`) are related by
`history = states[0 .. currentIndex]` and `future = reverse
(states[currentIndex + 1 ..])`; hence at that point `undo` (respectively
`redo`) succeeds in one iff it succeeds in the other, and the snapshot
returned by `HistoryManager` is the one `UndoManager` hands to
`importData`. -/
theorem managers_simulation {ε : Type} (c : Nat) (s0 : String) (ops : List EditOp)
    (board : Board ε) (hc : 1 ≤ c)
    (hquiet : ∀ d b k, board.importData d b k = (.ok (), k))
    (hdup : dupFree ((HistoryManager.withCapacity c).initialise s0) ops = true) (n : Nat) :
    Related (((HistoryManager.withCapacity c).initialise s0).after (ops.take n))
        (((UndoManager.constructor c).pushSnapshot s0).after board (ops.take n)) ∧
      (((((HistoryManager.withCapacity c).initialise s0).after (ops.take n)).undo.1 ≠
            JsValue.null ↔
          ((((UndoManager.constructor c).pushSnapshot s0).after board (ops.take n)).undo
            board).result = .ok true) ∧
        (∀ s, (((HistoryManager.withCapacity c).initialise s0).after (ops.take n)).undo.1 =
            JsValue.str s →
          ((((UndoManager.constructor c).pushSnapshot s0).after board (ops.take n)).undo
            board).imports = [{ data := s, shouldSave := false, restoring := true }])) ∧
      (((((HistoryManager.withCapacity c).initialise s0).after (ops.take n)).redo.1 ≠
            JsValue.null ↔
          ((((UndoManager.constructor c).pushSnapshot s0).after board (ops.take n)).redo
            board).result = .ok true) ∧
        (∀ s, (((HistoryManager.withCapacity c).initialise s0).after (ops.take n)).redo.1 =
            JsValue.str s →
          ((((UndoManager.constructor c).pushSnapshot s0).after board (ops.take n)).redo
            board).imports = [{ data := s, shouldSave := false, restoring := true }])) := by
  have hsim := (Simulates.after_calls board hquiet (ops.take n) _ _ (Simulates.start c hc s0)
    (dupFree_take n ops _ hdup)).1
  refine ⟨hsim.related, ?_, ?_⟩
  · rcases (hsim.undo_step board hquiet).2 with ⟨hnull, hu⟩ | ⟨p, hp, hres, himp⟩
    · rw [hnull, hu]
      refine ⟨⟨fun hne => absurd rfl hne, fun hr => ?_⟩, fun s hs => ?_⟩
      · simp at hr
      · simp at hs
    · rw [hp, hres, himp]
      refine ⟨⟨fun _ => rfl, fun _ => by simp⟩, fun s hs => ?_⟩
      simp only [JsValue.str.injEq] at hs
      rw [hs]
  · rcases (hsim.redo_step board hquiet).2 with ⟨hnull, hu⟩ | ⟨p, hp, hres, himp⟩
    · rw [hnull, hu]
      refine ⟨⟨fun hne => absurd rfl hne, fun hr => ?_⟩, fun s hs => ?_⟩
      · simp at hr
      · simp at hs
    · rw [hp, hres, himp]
      refine ⟨⟨fun _ => rfl, fun _ => by simp⟩, fun s hs => ?_⟩
      simp only [JsValue.str.injEq] at hs
      rw [hs]

/-- C20 at capacity 2 with the initial snapshot A, after the first three of
the calls push B, push C, undo, push D: the managers are related. -/
theorem managers_simulation_witness :
    (1 ≤ 2) ∧
      dupFree ((HistoryManager.withCapacity 2).initialise "A")
        [.push "B", .push "C", .undo, .push "D"] = true ∧
      Related
        (((HistoryManager.withCapacity 2).initialise "A").after
          ([EditOp.push "B", .push "C", .undo, .push "D"].take 3))
        (((UndoManager.constructor 2).pushSnapshot "A").after quietBoard
          ([EditOp.push "B", .push "C", .undo, .push "D"].take 3)) :=
  ⟨by decide, by decide,
    (managers_simulation 2 "A" [.push "B", .push "C", .undo, .push "D"] quietBoard
      (by decide) (fun _ _ _ => rfl) (by decide) 3).1⟩

end Calclynx
